import Mathlib

/-!
Verification of the support-console case aggregation engine
(`server/support-plugin.ts`) and of the credential-cache design.

JavaScript values flowing through the aggregator are modelled by the
inductive `JValue`; JS objects are association lists whose later literal
keys override earlier ones, mirroring object-spread semantics.  JS numbers
are modelled exactly (rationals plus NaN and the infinities); machine
floating point is idealised to exact arithmetic, which is faithful for the
decimal literals the claims exercise.  Strings are lists of characters so
that every definition evaluates inside the kernel.
-/

set_option maxHeartbeats 4000000

/-- A JavaScript number: a finite value, NaN, or a signed infinity. -/
inductive JsNumber where
  | fin (q : ℚ)
  | nan
  | inf
  | neginf
deriving DecidableEq

/-- A JavaScript runtime value as seen by the aggregator. -/
inductive JValue where
  | null
  | bool (b : Bool)
  | num (n : JsNumber)
  | str (s : List Char)
  | arr (xs : List JValue)
  | obj (fields : List (String × JValue))

/-- Property lookup on an object's field list (first binding wins, as in a
JS object where keys are unique). -/
def jsLookup (fields : List (String × JValue)) (k : String) : Option JValue :=
  (fields.find? (fun p => p.1 == k)).map (fun p => p.2)

/-- Writing key `k` in an object literal: overrides an existing binding in
place, otherwise appends, exactly as JS object-spread/literal keys do. -/
def setField (fields : List (String × JValue)) (k : String) (v : JValue) :
    List (String × JValue) :=
  if fields.any (fun p => p.1 == k) then
    fields.map (fun p => if p.1 == k then (k, v) else p)
  else fields ++ [(k, v)]

/-- `{ ...base, ...upd }`: every binding of `upd` written onto `base`. -/
def spreadMerge (base upd : List (String × JValue)) : List (String × JValue) :=
  upd.foldl (fun acc p => setField acc p.1 p.2) base

/-- The own enumerable fields `{...v}` contributes when spread into an
object literal: objects give their fields, arrays and strings give their
indexed elements, primitives give nothing. -/
def spreadFields : JValue → List (String × JValue)
  | .obj fs => fs
  | .arr xs => xs.enum.map (fun p => (toString p.1, p.2))
  | .str s => s.enum.map (fun p => (toString p.1, .str [p.2]))
  | _ => []

/-- `value && typeof value === "object"`: a truthy value of type object,
i.e. a (possibly empty) object or array but not `null`. -/
def isSpreadableObject : JValue → Bool
  | .obj _ => true
  | .arr _ => true
  | _ => false

/-! ### Case status and next-action derivation (`deriveCaseStatus`,
`deriveNextAction`, support-plugin.ts lines 285-318) -/

/-- The four case states, ordered by derivation priority. -/
inductive CaseStatus where
  | pending
  | in_progress
  | done
  | blocked
deriving DecidableEq

/-- `deriveCaseStatus` from support-plugin.ts.  The stored status is an
`Option String` (the source coerces a non-string to `null`); the counters
are row counts. -/
def deriveCaseStatus (status : Option String) (hasRefund hasCredit : Bool)
    (actionCount replyCount regenCount : Nat) : CaseStatus :=
  if status = some "blocked" then .blocked
  else if hasRefund = true ∨ hasCredit = true ∨ status = some "done" then .done
  else if actionCount + replyCount + regenCount > 0 ∨ status = some "in_progress" then
    .in_progress
  else .pending

/-- `deriveNextAction` from support-plugin.ts. -/
def deriveNextAction (caseStatus : CaseStatus) (hasReply hasRefund hasCredit : Bool) :
    String :=
  if caseStatus = .pending then "review_report"
  else if caseStatus = .blocked then "investigate_blocker"
  else if caseStatus = .done then
    (if hasReply then "monitor" else "send_customer_reply")
  else if hasReply && !hasRefund && !hasCredit then "apply_resolution_or_regenerate"
  else if !hasReply && (hasRefund || hasCredit) then "send_customer_reply"
  else "continue_investigation"

/-- The next-action decision table exactly as the specification writes it
(spec section 4.3), used to compare the implementation against the spec. -/
def nextActionSpecTable (caseStatus : CaseStatus) (hasReply hasRefund hasCredit : Bool) :
    String :=
  match caseStatus with
  | .pending => "review_report"
  | .blocked => "investigate_blocker"
  | .done => if hasReply then "monitor" else "send_customer_reply"
  | .in_progress =>
    if hasReply && !(hasRefund || hasCredit) then "apply_resolution_or_regenerate"
    else if !hasReply && (hasRefund || hasCredit) then "send_customer_reply"
    else "continue_investigation"

/-! ### The per-case detail route's state derivation
(support-plugin.ts lines 680-693): the booleans and counters fed into the
two derivation functions, computed from the raw rows. -/

/-- An `operator_actions` row, restricted to the fields the aggregation
logic reads. -/
structure ActionRow where
  action_type : String
  amount_usd : Option JsNumber
  status : Option String
  actor : Option String
  created_at : Int

/-- A `support_replies` row. -/
structure ReplyRow where
  message_text : Option String
  sent_by : Option String
  created_at : Int

/-- An `operator_regenerated_reports` row. -/
structure RegenRow where
  operator_context : Option String
  actor : Option String
  created_at : Int

/-- A `response_ratings` row. -/
structure RatingRow where
  rating : String
  reason_code : Option String
  actor : Option String
  created_at : Int

/-- The status/next-action computation of the `/requests/:id` route:
`hasRefund`, `hasCredit` and `hasReply` from the action and reply rows,
then `deriveCaseStatus` and `deriveNextAction`. -/
def detailCaseState (actions : List ActionRow) (replies : List ReplyRow)
    (regens : List RegenRow) (statusRow : Option String) : CaseStatus × String :=
  let hasRefund := actions.any (fun a => a.action_type == "apply_refund")
  let hasCredit := actions.any (fun a => a.action_type == "apply_credit")
  let hasReply := decide (0 < replies.length) || actions.any (fun a => a.action_type == "send_reply")
  let cs := deriveCaseStatus statusRow hasRefund hasCredit
    actions.length replies.length regens.length
  (cs, deriveNextAction cs hasReply hasRefund hasCredit)

/-! ## Claims C1-C3 -/

/-- C1: `deriveCaseStatus` evaluates its rules in priority order: a stored
status of `blocked` always yields `blocked`; otherwise a refund action, a
credit action or a stored `done` yields `done`; otherwise positive
activity (actions + replies + regenerations) or a stored `in_progress`
yields `in_progress`; otherwise the case is `pending`. -/
theorem deriveCaseStatus_priority_order (status : Option String)
    (hasRefund hasCredit : Bool) (a r g : Nat) :
    (status = some "blocked" →
      deriveCaseStatus status hasRefund hasCredit a r g = .blocked) ∧
    (status ≠ some "blocked" →
      (hasRefund = true ∨ hasCredit = true ∨ status = some "done") →
      deriveCaseStatus status hasRefund hasCredit a r g = .done) ∧
    (status ≠ some "blocked" →
      ¬(hasRefund = true ∨ hasCredit = true ∨ status = some "done") →
      (a + r + g > 0 ∨ status = some "in_progress") →
      deriveCaseStatus status hasRefund hasCredit a r g = .in_progress) ∧
    (status ≠ some "blocked" →
      ¬(hasRefund = true ∨ hasCredit = true ∨ status = some "done") →
      ¬(a + r + g > 0 ∨ status = some "in_progress") →
      deriveCaseStatus status hasRefund hasCredit a r g = .pending) := by
  refine ⟨?_, ?_, ?_, ?_⟩ <;> intros h1
  · simp [deriveCaseStatus, h1]
  · intro h2
    simp only [deriveCaseStatus]
    rw [if_neg h1, if_pos h2]
  · intro h2 h3
    simp only [deriveCaseStatus]
    rw [if_neg h1, if_neg h2, if_pos h3]
  · intro h2 h3
    simp only [deriveCaseStatus]
    rw [if_neg h1, if_neg h2, if_neg h3]

/-- Closed witness for C1: the blocked rule dominates at a concrete input
with refund, credit and activity all present. -/
theorem deriveCaseStatus_priority_order_witness :
    deriveCaseStatus (some "blocked") true true 3 2 1 = .blocked ∧
    deriveCaseStatus none true false 0 0 0 = .done ∧
    deriveCaseStatus none false false 0 1 0 = .in_progress ∧
    deriveCaseStatus none false false 0 0 0 = .pending := by
  refine ⟨?_, ?_, ?_, ?_⟩
  · exact (deriveCaseStatus_priority_order (some "blocked") true true 3 2 1).1 rfl
  · exact (deriveCaseStatus_priority_order none true false 0 0 0).2.1
      (by decide) (Or.inl rfl)
  · exact (deriveCaseStatus_priority_order none false false 0 1 0).2.2.1
      (by decide) (by decide) (Or.inl (by decide))
  · exact (deriveCaseStatus_priority_order none false false 0 0 0).2.2.2
      (by decide) (by decide) (by decide)

/-- C2: for every status and every combination of the three booleans,
`deriveNextAction` returns exactly the label of the specification's
decision table. -/
theorem deriveNextAction_matches_spec_table (caseStatus : CaseStatus)
    (hasReply hasRefund hasCredit : Bool) :
    deriveNextAction caseStatus hasReply hasRefund hasCredit =
      nextActionSpecTable caseStatus hasReply hasRefund hasCredit := by
  cases caseStatus <;> cases hasReply <;> cases hasRefund <;> cases hasCredit <;> rfl

/-- The single reply row of the spec's one-reply scenario. -/
def exampleReply : ReplyRow :=
  { message_text := some "hi", sent_by := none, created_at := 10 }

/-- C3 counterexample: with no actions, one reply, no regenerations and no
stored status, the code derives case status `in_progress` with
has_reply = true, has_refund = false, but the next action is
`apply_resolution_or_regenerate`, not `continue_investigation` as the
claim states. -/
theorem detailCaseState_one_reply_counterexample :
    detailCaseState [] [exampleReply] [] none =
      (CaseStatus.in_progress, "apply_resolution_or_regenerate") ∧
    "apply_resolution_or_regenerate" ≠ "continue_investigation" := by
  constructor
  · rfl
  · decide

/-- C3 amended: for the input with no operator actions, exactly one reply,
no regenerations and no stored status record, the derived case status is
`in_progress` (with has_reply = true and has_refund = false) and the
derived next action is `apply_resolution_or_regenerate`, the table row for
an in-progress case with a reply and no refund or credit. -/
theorem detailCaseState_one_reply_amended :
    detailCaseState [] [exampleReply] [] none =
      (CaseStatus.in_progress, "apply_resolution_or_regenerate") ∧
    (decide (0 < ([exampleReply]).length) ||
      ([] : List ActionRow).any (fun a => a.action_type == "send_reply")) = true ∧
    ([] : List ActionRow).any (fun a => a.action_type == "apply_refund") = false := by
  refine ⟨rfl, by decide, by decide⟩

/-! ### The merged case timeline (`/requests/:id` route,
support-plugin.ts lines 695-730): tag each row with its event kind,
project to the common event shape, concatenate, and sort descending by
timestamp. -/

/-- A projected timeline event. -/
structure TimelineEvent where
  event_type : String
  event_at : Int
  actor : Option String
  details : List (String × JValue)

/-- Descending-timestamp order on timeline events (the JS comparator
subtracts timestamps so that more recent events come first). -/
def timelineDesc (a b : TimelineEvent) : Prop := b.event_at ≤ a.event_at

instance : DecidableRel timelineDesc := fun a b => Int.decLe _ _

instance : IsTotal TimelineEvent timelineDesc :=
  ⟨fun a b => le_total b.event_at a.event_at⟩

instance : IsTrans TimelineEvent timelineDesc :=
  ⟨fun _ _ _ h1 h2 => le_trans h2 h1⟩

/-- Option String projected into the JSON null / string payload shape. -/
def optStr : Option String → JValue
  | some s => .str s.toList
  | none => .null

/-- Option number projected into the JSON payload shape. -/
def optNum : Option JsNumber → JValue
  | some n => .num n
  | none => .null

/-- The merged, descending timeline built by the detail route: the
report-generation event, the regeneration, reply, action and rating rows,
concatenated and sorted descending by timestamp. -/
def buildTimeline (reportTs : Int) (reportSource : String) (regens : List RegenRow)
    (replies : List ReplyRow) (actions : List ActionRow) (ratings : List RatingRow) :
    List TimelineEvent :=
  List.insertionSort timelineDesc
    ({ event_type := "report_generated", event_at := reportTs, actor := none,
       details := [("source", .str reportSource.toList)] } ::
     (regens.map (fun rr =>
       { event_type := "report_regenerated", event_at := rr.created_at,
         actor := rr.actor,
         details := [("operator_context", optStr rr.operator_context)] }) ++
      replies.map (fun rp =>
       { event_type := "reply_sent", event_at := rp.created_at,
         actor := rp.sent_by,
         details := [("message_text", .str ((rp.message_text.getD "").toList))] }) ++
      actions.map (fun ac =>
       { event_type := ac.action_type, event_at := ac.created_at,
         actor := ac.actor,
         details := [("amount_usd", optNum ac.amount_usd),
                     ("status", optStr ac.status)] }) ++
      ratings.map (fun rt =>
       { event_type := "response_rated", event_at := rt.created_at,
         actor := rt.actor,
         details := [("rating", .str rt.rating.toList),
                     ("reason_code", optStr rt.reason_code)] })))

/-- C4: the merged timeline is sorted descending by event timestamp -
every event's `event_at` is greater than or equal to the `event_at` of
every event after it - and the construction is a pure function of the
input rows, hence deterministic. -/
theorem buildTimeline_sorted_desc (reportTs : Int) (reportSource : String)
    (regens : List RegenRow) (replies : List ReplyRow) (actions : List ActionRow)
    (ratings : List RatingRow) :
    List.Pairwise (fun a b => b.event_at ≤ a.event_at)
      (buildTimeline reportTs reportSource regens replies actions ratings) ∧
    buildTimeline reportTs reportSource regens replies actions ratings =
      buildTimeline reportTs reportSource regens replies actions ratings := by
  constructor
  · exact List.sorted_insertionSort timelineDesc _
  · rfl

/-! ### Report parsing (`parseAgentReport`, `DEFAULT_REPORT`,
support-plugin.ts lines 48-56 and 95-108).  `JSON.parse` is an injected
dependency of the model: `parseAgentReport` takes the parse function as a
parameter, and the claims hold for every parse function. -/

/-- The all-defaults report template. -/
def DEFAULT_REPORT : List (String × JValue) :=
  [("credit_recommendation", .null),
   ("refund_recommendation", .null),
   ("draft_response", .str []),
   ("past_interactions_summary", .str []),
   ("order_details_summary", .str []),
   ("decision_confidence", .str "medium".toList),
   ("escalation_flag", .bool false)]

/-- `parseAgentReport` from support-plugin.ts: a string is parsed (parse
failure falls back to the defaults), a truthy object is spread over the
defaults, and anything else yields the defaults.  `none` models an absent
(`undefined`) value. -/
def parseAgentReport (parseJson : List Char → Option JValue) :
    Option JValue → List (String × JValue)
  | some (.str s) =>
    match parseJson s with
    | some v => spreadMerge DEFAULT_REPORT (spreadFields v)
    | none => DEFAULT_REPORT
  | some v =>
    if isSpreadableObject v then spreadMerge DEFAULT_REPORT (spreadFields v)
    else DEFAULT_REPORT
  | none => DEFAULT_REPORT

/-- Key membership in an object's field list. -/
def hasKey (fields : List (String × JValue)) (k : String) : Bool :=
  fields.any (fun p => p.1 == k)

theorem jsLookup_isSome_iff_hasKey (fields : List (String × JValue)) (k : String) :
    (jsLookup fields k).isSome = true ↔ hasKey fields k = true := by
  simp only [jsLookup, hasKey, Option.isSome_map', List.find?_isSome, List.any_eq_true]

theorem hasKey_setField_of_hasKey (fields : List (String × JValue)) (k : String)
    (v : JValue) (k' : String) (h : hasKey fields k' = true) :
    hasKey (setField fields k v) k' = true := by
  simp only [hasKey, List.any_eq_true] at h
  obtain ⟨p, hp, hpk⟩ := h
  unfold setField
  by_cases hc : fields.any (fun q => q.1 == k) = true
  · rw [if_pos hc]
    simp only [hasKey, List.any_eq_true]
    refine ⟨if p.1 == k then (k, v) else p, List.mem_map_of_mem _ hp, ?_⟩
    by_cases hpk2 : (p.1 == k) = true
    · rw [if_pos hpk2]
      have h1 : p.1 = k := by simpa using hpk2
      have h2 : p.1 = k' := by simpa using hpk
      simp [← h1, h2]
    · rw [if_neg hpk2]
      exact hpk
  · rw [if_neg hc]
    simp only [hasKey, List.any_append, Bool.or_eq_true, List.any_eq_true]
    exact Or.inl ⟨p, hp, hpk⟩

theorem hasKey_spreadMerge_of_hasKey (upd base : List (String × JValue)) (k : String)
    (h : hasKey base k = true) : hasKey (spreadMerge base upd) k = true := by
  induction upd generalizing base with
  | nil => exact h
  | cons p rest ih =>
    exact ih (setField base p.1 p.2) (hasKey_setField_of_hasKey base p.1 p.2 k h)

/-- C5: `parseAgentReport` is total (never throws) and recovers locally:
every field of the default report is present in the output for every
input and every parse function, a string whose parse fails yields exactly
the all-defaults report, and an absent, null or other non-object value
yields exactly the all-defaults report. -/
theorem parseAgentReport_total_defaults (parseJson : List Char → Option JValue)
    (value : Option JValue) :
    (∀ k : String, hasKey DEFAULT_REPORT k = true →
      hasKey (parseAgentReport parseJson value) k = true) ∧
    (∀ s : List Char, value = some (.str s) → parseJson s = none →
      parseAgentReport parseJson value = DEFAULT_REPORT) ∧
    (value = none → parseAgentReport parseJson value = DEFAULT_REPORT) ∧
    (∀ w : JValue, value = some w → isSpreadableObject w = false →
      (∀ s, w ≠ .str s) → parseAgentReport parseJson value = DEFAULT_REPORT) := by
  refine ⟨?_, ?_, ?_, ?_⟩
  · intro k hk
    match value with
    | none => exact hk
    | some (.str s) =>
      simp only [parseAgentReport]
      match parseJson s with
      | some v => exact hasKey_spreadMerge_of_hasKey _ _ _ hk
      | none => exact hk
    | some .null => exact hk
    | some (.bool b) => exact hk
    | some (.num n) => exact hk
    | some (.arr xs) => exact hasKey_spreadMerge_of_hasKey _ _ _ hk
    | some (.obj fs) => exact hasKey_spreadMerge_of_hasKey _ _ _ hk
  · intro s hv hp
    subst hv
    simp [parseAgentReport, hp]
  · intro hv
    subst hv
    rfl
  · intro w hv hobj hstr
    subst hv
    match w with
    | .null => rfl
    | .bool b => rfl
    | .num n => rfl
    | .str s => exact absurd rfl (hstr s)
    | .arr xs => simp [isSpreadableObject] at hobj
    | .obj fs => simp [isSpreadableObject] at hobj

/-- Closed witness for C5: with a parse function that rejects everything,
a malformed string report yields exactly the defaults, an absent value
yields the defaults, a numeric value yields the defaults, and the
`draft_response` key is present in the output. -/
theorem parseAgentReport_total_defaults_witness :
    parseAgentReport (fun _ => none) (some (.str "not json".toList)) = DEFAULT_REPORT ∧
    parseAgentReport (fun _ => none) none = DEFAULT_REPORT ∧
    parseAgentReport (fun _ => none) (some (.num .nan)) = DEFAULT_REPORT ∧
    hasKey (parseAgentReport (fun _ => none) (some (.str "not json".toList)))
      "draft_response" = true := by
  refine ⟨?_, ?_, ?_, ?_⟩
  · exact (parseAgentReport_total_defaults (fun _ => none)
      (some (.str "not json".toList))).2.1 _ rfl rfl
  · exact (parseAgentReport_total_defaults (fun _ => none) none).2.2.1 rfl
  · exact (parseAgentReport_total_defaults (fun _ => none) (some (.num .nan))).2.2.2
      (.num .nan) rfl rfl (fun s h => JValue.noConfusion h)
  · exact (parseAgentReport_total_defaults (fun _ => none)
      (some (.str "not json".toList))).1 "draft_response" (by decide)

/-! ### Numeric coercion and recommendation normalization
(`toNullableNumber`, `normalizeRecommendation`,
support-plugin.ts lines 127-167).  `Number(string)` is modelled after the
ECMAScript string-to-number coercion: surrounding whitespace is ignored,
the empty string is 0, signed decimal literals with optional fraction and
exponent, `Infinity`, and the unsigned `0x`/`0o`/`0b` radix forms; any
other string is NaN. -/

/-- JS whitespace (the ASCII part plus NBSP and the BOM). -/
def isJsWs (c : Char) : Bool :=
  c == ' ' || c == '\t' || c == '\n' || c == '\r' ||
    c.toNat == 11 || c.toNat == 12 || c.toNat == 160 || c.toNat == 65279

/-- `String.prototype.trim`. -/
def jsTrim (s : List Char) : List Char :=
  ((s.dropWhile isJsWs).reverse.dropWhile isJsWs).reverse

def digitsToNat (ds : List Char) : Nat :=
  ds.foldl (fun n c => n * 10 + (c.toNat - '0'.toNat)) 0

def isHexDigitCI (c : Char) : Bool :=
  c.isDigit || (decide ('a' ≤ c) && decide (c ≤ 'f')) ||
    (decide ('A' ≤ c) && decide (c ≤ 'F'))

def hexDigitVal (c : Char) : Nat :=
  if c.isDigit then c.toNat - '0'.toNat
  else if decide ('a' ≤ c) && decide (c ≤ 'f') then c.toNat - 'a'.toNat + 10
  else c.toNat - 'A'.toNat + 10

def isOctDigit (c : Char) : Bool := decide ('0' ≤ c) && decide (c ≤ '7')

def isBinDigit (c : Char) : Bool := c == '0' || c == '1'

/-- The optional exponent part of a decimal literal; the whole remaining
input must be consumed. -/
def parseExpPart : List Char → Option Int
  | [] => some 0
  | c :: rest =>
    if c == 'e' || c == 'E' then
      match rest with
      | '+' :: ds =>
        if ds ≠ [] ∧ ds.all Char.isDigit then some ((digitsToNat ds : Nat) : Int) else none
      | '-' :: ds =>
        if ds ≠ [] ∧ ds.all Char.isDigit then some (-((digitsToNat ds : Nat) : Int)) else none
      | ds =>
        if ds ≠ [] ∧ ds.all Char.isDigit then some ((digitsToNat ds : Nat) : Int) else none
    else none

/-- `mantissa * 10 ^ (e - fracLen)` as an exact rational. -/
def applyExponent (mantissa : Nat) (fracLen : Nat) (e : Int) : ℚ :=
  if 0 ≤ e - (fracLen : Int) then (mantissa : ℚ) * (10 : ℚ) ^ (e - (fracLen : Int)).toNat
  else mkRat (mantissa : Int) (10 ^ ((fracLen : Int) - e).toNat)

/-- An unsigned decimal literal `digits [. digits] [exponent]` (at least
one digit overall), fully consuming the input. -/
def parseUnsignedDec (cs : List Char) : Option ℚ :=
  let intPart := cs.takeWhile Char.isDigit
  let rest1 := cs.dropWhile Char.isDigit
  match rest1 with
  | '.' :: rest2 =>
    let fracPart := rest2.takeWhile Char.isDigit
    let rest3 := rest2.dropWhile Char.isDigit
    if intPart = [] ∧ fracPart = [] then none
    else (parseExpPart rest3).map (fun e =>
      applyExponent (digitsToNat (intPart ++ fracPart)) fracPart.length e)
  | _ =>
    if intPart = [] then none
    else (parseExpPart rest1).map (fun e => applyExponent (digitsToNat intPart) 0 e)

/-- The signed decimal / Infinity tail of the coercion. -/
def jsSignedTail (rest : List Char) (neg : Bool) : JsNumber :=
  if rest = "Infinity".toList then (if neg then .neginf else .inf)
  else
    match parseUnsignedDec rest with
    | some q => .fin (if neg then -q else q)
    | none => .nan

/-- A radix-prefixed unsigned integer literal (`0x…`, `0o…`, `0b…`). -/
def jsRadixTail (ds : List Char) (radix : Nat) (isDigitB : Char → Bool)
    (val : Char → Nat) : JsNumber :=
  if ds ≠ [] ∧ ds.all isDigitB then
    .fin ((ds.foldl (fun n c => n * radix + val c) 0 : Nat) : ℚ)
  else .nan

/-- ECMAScript `Number(string)`. -/
def jsStringToNumber (s : List Char) : JsNumber :=
  match jsTrim s with
  | [] => .fin 0
  | c :: cs =>
    if (c :: cs).take 2 = ['0', 'x'] ∨ (c :: cs).take 2 = ['0', 'X'] then
      jsRadixTail ((c :: cs).drop 2) 16 isHexDigitCI hexDigitVal
    else if (c :: cs).take 2 = ['0', 'o'] ∨ (c :: cs).take 2 = ['0', 'O'] then
      jsRadixTail ((c :: cs).drop 2) 8 isOctDigit (fun d => d.toNat - '0'.toNat)
    else if (c :: cs).take 2 = ['0', 'b'] ∨ (c :: cs).take 2 = ['0', 'B'] then
      jsRadixTail ((c :: cs).drop 2) 2 isBinDigit (fun d => d.toNat - '0'.toNat)
    else
      match c, cs with
      | '+', rest => jsSignedTail rest false
      | '-', rest => jsSignedTail rest true
      | _, _ => jsSignedTail (c :: cs) false

/-- `toNullableNumber` from support-plugin.ts: a finite number is kept, a
string is coerced with `Number` and kept when finite, everything else is
null. -/
def toNullableNumber : Option JValue → Option ℚ
  | some (.num (.fin q)) => some q
  | some (.str s) =>
    match jsStringToNumber s with
    | .fin q => some q
    | _ => none
  | _ => none

/-- Property access `v.k` on an arbitrary JS value (own fields only, which
is all the source relies on). -/
def jsGet (v : JValue) (k : String) : Option JValue :=
  jsLookup (spreadFields v) k

/-- `typeof r === "string" && r.trim().length > 0`. -/
def isNonEmptyString : Option JValue → Bool
  | some (.str s) => !(jsTrim s).isEmpty
  | _ => false

/-- The amount chain of `normalizeRecommendation`: the first of
`amount_usd`, `amount`, `credit_amount`, `refund_amount` that coerces to a
finite number (`??` chain in the source). -/
def recAmount (raw : List (String × JValue)) : Option ℚ :=
  (toNullableNumber (jsLookup raw "amount_usd")).or
    ((toNullableNumber (jsLookup raw "amount")).or
      ((toNullableNumber (jsLookup raw "credit_amount")).or
        (toNullableNumber (jsLookup raw "refund_amount"))))

/-- The `reasonCandidates.find(...)` step of `normalizeRecommendation`. -/
def recReasonFound (raw : List (String × JValue)) : Option (Option JValue) :=
  [jsLookup raw "reason", jsLookup raw "credit_reason",
    jsLookup raw "refund_reason"].find? isNonEmptyString

/-- The `reason ?? raw.reason ?? ""` fallback of `normalizeRecommendation`. -/
def recReasonVal (raw : List (String × JValue)) : JValue :=
  match recReasonFound raw with
  | some (some (.str s)) => .str s
  | _ =>
    match jsLookup raw "reason" with
    | some .null => .str []
    | none => .str []
    | some w => w

/-- The normalized `amount_usd` payload value (`null` when no candidate
coerces). -/
def recAmountVal (raw : List (String × JValue)) : JValue :=
  match recAmount raw with
  | some q => .num (.fin q)
  | none => .null

/-- `normalizeRecommendation` from support-plugin.ts: null or a non-object
yields null; otherwise the original fields are kept and the normalized
`amount_usd` and `reason` fields are written on top. -/
def normalizeRecommendation (value : Option JValue) : Option (List (String × JValue)) :=
  match value with
  | some v =>
    if isSpreadableObject v then
      some (spreadMerge (spreadFields v)
        [("amount_usd", recAmountVal (spreadFields v)),
         ("reason", recReasonVal (spreadFields v))])
    else none
  | none => none

/-! ### Lookup laws for object writes, and claims C6 / C10 -/

theorem jsLookup_setField_same (fields : List (String × JValue)) (k : String)
    (v : JValue) : jsLookup (setField fields k v) k = some v := by
  unfold setField
  by_cases hc : fields.any (fun q => q.1 == k) = true
  · rw [if_pos hc]
    simp only [List.any_eq_true] at hc
    unfold jsLookup
    induction fields with
    | nil => simp at hc
    | cons p rest ih =>
      by_cases hp : (p.1 == k) = true
      · simp [List.find?, hp]
      · rw [List.map_cons, List.find?]
        rw [if_neg hp]
        simp only [hp, Bool.false_eq_true, if_false]
        rcases hc with ⟨q, hq, hqk⟩
        rcases List.mem_cons.mp hq with h | h
        · exact absurd (h ▸ hqk) hp
        · exact ih ⟨q, h, hqk⟩
  · rw [if_neg hc]
    unfold jsLookup
    rw [List.find?_append]
    have hnone : fields.find? (fun p => p.1 == k) = none := by
      rw [List.find?_eq_none]
      intro x hx hpx
      exact hc (List.any_eq_true.mpr ⟨x, hx, hpx⟩)
    simp [hnone, List.find?]

theorem jsLookup_setField_other (fields : List (String × JValue)) (k : String)
    (v : JValue) (k' : String) (hne : (k' == k) = false) :
    jsLookup (setField fields k v) k' = jsLookup fields k' := by
  have hne2 : (k == k') = false := by
    cases hkk : (k == k') with
    | false => rfl
    | true =>
      have h1 : k = k' := by simpa using hkk
      rw [h1] at hne
      simp at hne
  unfold setField
  by_cases hc : fields.any (fun q => q.1 == k) = true
  · rw [if_pos hc]
    clear hc
    unfold jsLookup
    induction fields with
    | nil => rfl
    | cons p rest ih =>
      rw [List.map_cons, List.find?, List.find?]
      by_cases hp : (p.1 == k) = true
      · rw [if_pos hp]
        have hpk : p.1 = k := by simpa using hp
        have hp1 : (p.1 == k') = false := by rw [hpk]; exact hne2
        simp only [hne2, hp1]
        exact ih
      · rw [if_neg hp]
        by_cases hp2 : (p.1 == k') = true
        · simp [hp2]
        · simp only [hp2]
          exact ih
  · rw [if_neg hc]
    unfold jsLookup
    rw [List.find?_append]
    cases hf : fields.find? (fun p => p.1 == k') with
    | some p => simp
    | none =>
      simp only [Option.none_or, Option.map_none']
      simp [List.find?, hne2]

/-- Spec-side reading of a reason candidate: the value must be a string
that is non-empty after trimming. -/
def specReasonOf : Option JValue → Option (List Char)
  | some (.str s) => if (jsTrim s).isEmpty then none else some s
  | _ => none

/-- Spec-side: the first amount candidate that coerces to a finite number,
in the fixed priority order of the specification. -/
def specFirstAmount (raw : List (String × JValue)) : Option ℚ :=
  ["amount_usd", "amount", "credit_amount", "refund_amount"].findSome?
    (fun k => toNullableNumber (jsLookup raw k))

/-- Spec-side: the first non-empty string among `reason`, `credit_reason`,
`refund_reason`. -/
def specFirstReason (raw : List (String × JValue)) : Option (List Char) :=
  ["reason", "credit_reason", "refund_reason"].findSome?
    (fun k => specReasonOf (jsLookup raw k))

theorem isNonEmptyString_eq_isSome_specReasonOf (o : Option JValue) :
    isNonEmptyString o = (specReasonOf o).isSome := by
  match o with
  | none => rfl
  | some .null => rfl
  | some (.bool b) => rfl
  | some (.num n) => rfl
  | some (.arr xs) => rfl
  | some (.obj fs) => rfl
  | some (.str s) =>
    simp only [isNonEmptyString, specReasonOf]
    by_cases hs : (jsTrim s).isEmpty = true
    · simp [hs]
    · simp [hs]

theorem specReasonOf_eq_some (o : Option JValue) (s : List Char)
    (h : specReasonOf o = some s) :
    o = some (.str s) ∧ isNonEmptyString o = true := by
  match o with
  | none => simp [specReasonOf] at h
  | some .null => simp [specReasonOf] at h
  | some (.bool b) => simp [specReasonOf] at h
  | some (.num n) => simp [specReasonOf] at h
  | some (.arr xs) => simp [specReasonOf] at h
  | some (.obj fs) => simp [specReasonOf] at h
  | some (.str t) =>
    simp only [specReasonOf] at h
    by_cases hs : (jsTrim t).isEmpty = true
    · rw [if_pos hs] at h
      exact absurd h (by simp)
    · rw [if_neg hs] at h
      have ht : t = s := by simpa using h
      subst ht
      refine ⟨rfl, ?_⟩
      simp [isNonEmptyString, hs]

theorem recAmount_eq_specFirstAmount (raw : List (String × JValue)) :
    recAmount raw = specFirstAmount raw := by
  unfold recAmount specFirstAmount
  simp only [List.findSome?]
  cases toNullableNumber (jsLookup raw "amount_usd") <;>
    cases toNullableNumber (jsLookup raw "amount") <;>
      cases toNullableNumber (jsLookup raw "credit_amount") <;>
        cases toNullableNumber (jsLookup raw "refund_amount") <;> rfl

theorem recReasonVal_eq_of_specFirstReason (raw : List (String × JValue))
    (s : List Char) (h : specFirstReason raw = some s) :
    recReasonVal raw = .str s := by
  unfold specFirstReason at h
  unfold recReasonVal recReasonFound
  cases h1 : specReasonOf (jsLookup raw "reason") with
  | some s1 =>
    obtain ⟨ho1, hne1⟩ := specReasonOf_eq_some _ _ h1
    have hs1 : s1 = s := by
      simp only [List.findSome?, h1] at h
      simpa using h
    subst hs1
    rw [ho1] at hne1
    simp [List.find?, ho1, hne1]
  | none =>
    have hne1 : isNonEmptyString (jsLookup raw "reason") = false := by
      rw [isNonEmptyString_eq_isSome_specReasonOf, h1]
      rfl
    cases h2 : specReasonOf (jsLookup raw "credit_reason") with
    | some s2 =>
      obtain ⟨ho2, hne2⟩ := specReasonOf_eq_some _ _ h2
      have hs2 : s2 = s := by
        simp only [List.findSome?, h1, h2] at h
        simpa using h
      subst hs2
      rw [ho2] at hne2
      simp [List.find?, hne1, ho2, hne2]
    | none =>
      have hne2 : isNonEmptyString (jsLookup raw "credit_reason") = false := by
        rw [isNonEmptyString_eq_isSome_specReasonOf, h2]
        rfl
      cases h3 : specReasonOf (jsLookup raw "refund_reason") with
      | some s3 =>
        obtain ⟨ho3, hne3⟩ := specReasonOf_eq_some _ _ h3
        have hs3 : s3 = s := by
          simp only [List.findSome?, h1, h2, h3] at h
          simpa using h
        subst hs3
        rw [ho3] at hne3
        simp [List.find?, hne1, hne2, ho3, hne3]
      | none =>
        simp only [List.findSome?, h1, h2, h3] at h
        simp at h

/-- C6: for every recommendation object, the normalized output keeps a
single canonical shape: the `amount_usd` field holds the first candidate
amount (priority order `amount_usd`, `amount`, `credit_amount`,
`refund_amount`) that coerces to a finite number, or JSON null when none
does (never zero); and whenever some candidate among `reason`,
`credit_reason`, `refund_reason` is a non-empty string, the `reason` field
holds the first such string. -/
theorem normalizeRecommendation_canonical (v : JValue)
    (h : isSpreadableObject v = true) :
    ∃ out, normalizeRecommendation (some v) = some out ∧
      jsLookup out "amount_usd" =
        some (match specFirstAmount (spreadFields v) with
              | some q => JValue.num (.fin q)
              | none => JValue.null) ∧
      (∀ s : List Char, specFirstReason (spreadFields v) = some s →
        jsLookup out "reason" = some (.str s)) := by
  refine ⟨spreadMerge (spreadFields v)
    [("amount_usd", recAmountVal (spreadFields v)),
     ("reason", recReasonVal (spreadFields v))], ?_, ?_, ?_⟩
  · simp only [normalizeRecommendation]
    rw [if_pos h]
  · have hsm : spreadMerge (spreadFields v)
        [("amount_usd", recAmountVal (spreadFields v)),
         ("reason", recReasonVal (spreadFields v))] =
        setField (setField (spreadFields v) "amount_usd"
          (recAmountVal (spreadFields v))) "reason" (recReasonVal (spreadFields v)) := rfl
    rw [hsm, jsLookup_setField_other _ _ _ _ (by decide), jsLookup_setField_same]
    rw [recAmountVal, recAmount_eq_specFirstAmount]
  · intro s hs
    have hsm : spreadMerge (spreadFields v)
        [("amount_usd", recAmountVal (spreadFields v)),
         ("reason", recReasonVal (spreadFields v))] =
        setField (setField (spreadFields v) "amount_usd"
          (recAmountVal (spreadFields v))) "reason" (recReasonVal (spreadFields v)) := rfl
    rw [hsm, jsLookup_setField_same, recReasonVal_eq_of_specFirstReason _ s hs]

/-- The spec's example recommendation payload. -/
def exampleRecommendation : JValue :=
  .obj [("credit_amount", .str "12.50".toList), ("credit_reason", .str "goodwill".toList)]

/-- Closed witness for C6: the payload
`(credit_amount: "12.50", credit_reason: "goodwill")` normalizes to amount
12.50 with reason "goodwill". -/
theorem normalizeRecommendation_canonical_witness :
    ∃ out, normalizeRecommendation (some exampleRecommendation) = some out ∧
      jsLookup out "amount_usd" =
        some (match specFirstAmount (spreadFields exampleRecommendation) with
              | some q => JValue.num (.fin q)
              | none => JValue.null) ∧
      (∀ s : List Char, specFirstReason (spreadFields exampleRecommendation) = some s →
        jsLookup out "reason" = some (.str s)) :=
  normalizeRecommendation_canonical exampleRecommendation rfl

/-- The concrete values behind the C6 witness: the example payload's first
coercible amount is exactly 12.50 and its first non-empty reason is
"goodwill". -/
theorem exampleRecommendation_values :
    specFirstAmount (spreadFields exampleRecommendation) = some (25 / 2 : ℚ) ∧
    specFirstReason (spreadFields exampleRecommendation) = some "goodwill".toList := by
  constructor
  · show some (mkRat 1250 100) = some (25 / 2 : ℚ)
    norm_num [mkRat, Rat.normalize]
  · rfl

/-- C10: when the highest-priority amount candidate `amount_usd` is the
empty string, the normalized amount is the finite number 0 (JS `Number`
coerces the empty string to 0), not an absent amount. -/
theorem normalizeRecommendation_empty_string_zero (v : JValue)
    (h : isSpreadableObject v = true)
    (ha : jsLookup (spreadFields v) "amount_usd" = some (.str [])) :
    ∃ out, normalizeRecommendation (some v) = some out ∧
      jsLookup out "amount_usd" = some (.num (.fin 0)) := by
  have h0 : recAmount (spreadFields v) = some 0 := by
    unfold recAmount
    rw [ha]
    rfl
  have hv : recAmountVal (spreadFields v) = .num (.fin 0) := by
    unfold recAmountVal
    rw [h0]
  refine ⟨spreadMerge (spreadFields v)
    [("amount_usd", recAmountVal (spreadFields v)),
     ("reason", recReasonVal (spreadFields v))], ?_, ?_⟩
  · simp only [normalizeRecommendation]
    rw [if_pos h]
  · have hsm : spreadMerge (spreadFields v)
        [("amount_usd", recAmountVal (spreadFields v)),
         ("reason", recReasonVal (spreadFields v))] =
        setField (setField (spreadFields v) "amount_usd"
          (recAmountVal (spreadFields v))) "reason" (recReasonVal (spreadFields v)) := rfl
    rw [hsm, jsLookup_setField_other _ _ _ _ (by decide), jsLookup_setField_same, hv]

/-- Closed witness for C10: the payload `(amount_usd: "")` normalizes to a
zero-dollar recommendation. -/
theorem normalizeRecommendation_empty_string_zero_witness :
    ∃ out, normalizeRecommendation (some (.obj [("amount_usd", .str [])])) = some out ∧
      jsLookup out "amount_usd" = some (.num (.fin 0)) :=
  normalizeRecommendation_empty_string_zero (.obj [("amount_usd", .str [])]) rfl rfl

/-! ### Draft-response sanitization (`sanitizeDraftResponse`,
`fakeDisplayName`, support-plugin.ts lines 58-125).

Each regex of the replacement chain is modelled as a matcher that, at the
head of the input, returns the number of characters the match consumes
(the regexes involved never need backtracking: their quantifiers are fixed
or end at a character-class change, so maximal munch is exact).  A global
`replace` is a left-to-right scanner threading the word-boundary state;
`skip` counts characters of the current match still to be consumed, which
keeps the recursion structural. -/

/-- JS `\w` (ASCII letters, digits, underscore). -/
def isWordChar (c : Char) : Bool := c.isAlphanum || c == '_'

def FIRST_NAMES : List String :=
  ["Alex", "Sam", "Jordan", "Taylor", "Morgan", "Casey", "Riley", "Avery",
   "Cameron", "Quinn"]

def LAST_NAMES : List String :=
  ["Parker", "Hayes", "Brooks", "Reed", "Foster", "Bailey", "Carter", "Gray",
   "Miller", "Price"]

/-- `fakeDisplayName` from support-plugin.ts: a 32-bit rolling hash of the
user id picks a first and last name; a missing or empty id gives null. -/
def fakeDisplayName (userId : Option String) : Option String :=
  match userId with
  | none => none
  | some s =>
    if s = "" then none
    else
      let hash := s.toList.foldl (fun h c => (h * 31 + c.toNat) % 4294967296) 0
      some ((FIRST_NAMES.getD (hash % 10) "") ++ " " ++ (LAST_NAMES.getD ((hash / 10) % 10) ""))

/-- The `\b` boundary test on the right of a match: end of input or a
non-word character. -/
def boundaryAfter : List Char → Bool
  | [] => true
  | c :: _ => !isWordChar c

/-- Consume exactly `n` case-insensitive hex digits. -/
def takeHexN : Nat → List Char → Option (List Char)
  | 0, l => some l
  | _ + 1, [] => none
  | n + 1, c :: cs => if isHexDigitCI c then takeHexN n cs else none

/-- Matcher for `/\buser-\d+\b/i` at the head of the input (the left
boundary is the scanner's job): the number of consumed characters. -/
def matchUserIdLen : List Char → Option Nat
  | c1 :: c2 :: c3 :: c4 :: c5 :: rest =>
    if (c1 == 'u' || c1 == 'U') && (c2 == 's' || c2 == 'S') &&
        (c3 == 'e' || c3 == 'E') && (c4 == 'r' || c4 == 'R') && c5 == '-' then
      (let ds := rest.takeWhile Char.isDigit
       if ds.isEmpty then none
       else if boundaryAfter (rest.dropWhile Char.isDigit) then some (5 + ds.length)
       else none)
    else none
  | _ => none

/-- Matcher for the UUID regex
`/\b[0-9a-f]{8}-[0-9a-f]{4}-[1-5][0-9a-f]{3}-[89ab][0-9a-f]{3}-[0-9a-f]{12}\b/i`:
a UUID always consumes 36 characters. -/
def matchUuidLen (l : List Char) : Option Nat :=
  match takeHexN 8 l with
  | some ('-' :: r2) =>
    (match takeHexN 4 r2 with
     | some ('-' :: c :: r4) =>
       if decide ('1' ≤ c) && decide (c ≤ '5') then
         match takeHexN 3 r4 with
         | some ('-' :: d :: r6) =>
           if d == '8' || d == '9' || d == 'a' || d == 'b' || d == 'A' || d == 'B' then
             match takeHexN 3 r6 with
             | some ('-' :: r8) =>
               (match takeHexN 12 r8 with
                | some r9 => if boundaryAfter r9 then some 36 else none
                | none => none)
             | _ => none
           else none
         | _ => none
       else none
     | _ => none)
  | _ => none

/-- Matcher for `/\b[0-9a-f]{32}\b/i`: exactly 32 hex digits then a
boundary. -/
def matchHex32Len (l : List Char) : Option Nat :=
  match takeHexN 32 l with
  | some rest => if boundaryAfter rest then some 32 else none
  | none => none

/-- Matcher for `/\border\s+[0-9a-f]{8,}\b/i`. -/
def matchOrderHexLen : List Char → Option Nat
  | c1 :: c2 :: c3 :: c4 :: c5 :: rest =>
    if (c1 == 'o' || c1 == 'O') && (c2 == 'r' || c2 == 'R') &&
        (c3 == 'd' || c3 == 'D') && (c4 == 'e' || c4 == 'E') && (c5 == 'r' || c5 == 'R') then
      (let ws := rest.takeWhile isJsWs
       if ws.isEmpty then none
       else
         let rest2 := rest.dropWhile isJsWs
         let hx := rest2.takeWhile isHexDigitCI
         if 8 ≤ hx.length ∧ boundaryAfter (rest2.dropWhile isHexDigitCI) = true then
           some (5 + ws.length + hx.length)
         else none)
    else none
  | _ => none

/-- One global regex replacement as a character scanner.  `prevW` is the
word-boundary state (was the previous character a word character), `skip`
the number of characters of the current match still to drop; every match
ends in a word character, so the boundary state after a match is `true`. -/
def regexReplaceGo (matcher : List Char → Option Nat) (ins : List Char) :
    Nat → Bool → List Char → List Char
  | _ + 1, _, [] => []
  | skip + 1, _, _ :: cs => regexReplaceGo matcher ins skip true cs
  | 0, _, [] => []
  | 0, prevW, c :: cs =>
    if prevW then c :: regexReplaceGo matcher ins 0 (isWordChar c) cs
    else
      match matcher (c :: cs) with
      | some k => ins ++ regexReplaceGo matcher ins (k - 1) true cs
      | none => c :: regexReplaceGo matcher ins 0 (isWordChar c) cs

/-- Does the global regex find at least one match? (Mirrors the scanner's
guard at every position.) -/
def regexHasMatch (matcher : List Char → Option Nat) : Bool → List Char → Bool
  | _, [] => false
  | prevW, c :: cs =>
    (!prevW && (matcher (c :: cs)).isSome) || regexHasMatch matcher (isWordChar c) cs

/-- `/\s{2,}/g → " "`: collapse every run of two or more whitespace
characters to a single space (a lone whitespace character is kept as is).
`skip` again makes the run jump structural. -/
def collapseWsGo : Nat → List Char → List Char
  | skip + 1, _ :: cs => collapseWsGo skip cs
  | _ + 1, [] => []
  | 0, [] => []
  | 0, c :: cs =>
    if isJsWs c then
      match cs with
      | d :: _ =>
        if isJsWs d then ' ' :: collapseWsGo (cs.takeWhile isJsWs).length cs
        else c :: collapseWsGo 0 cs
      | [] => [c]
    else c :: collapseWsGo 0 cs

def replaceUserIds (name : List Char) (l : List Char) : List Char :=
  regexReplaceGo matchUserIdLen name 0 false l

def replaceUuids (l : List Char) : List Char :=
  regexReplaceGo matchUuidLen "your order".toList 0 false l

def replaceHex32 (l : List Char) : List Char :=
  regexReplaceGo matchHex32Len "your order".toList 0 false l

def replaceOrderHex (l : List Char) : List Char :=
  regexReplaceGo matchOrderHexLen "order".toList 0 false l

def collapseWs (l : List Char) : List Char := collapseWsGo 0 l

/-- The base string of `sanitizeDraftResponse`: the draft when it is a
string, otherwise the empty string. -/
def draftBase : Option JValue → List Char
  | some (.str s) => s
  | _ => []

/-- `fakeDisplayName(userId) ?? "there"`. -/
def displayNameChars (userId : Option String) : List Char :=
  ((fakeDisplayName userId).getD "there").toList

/-- `sanitizeDraftResponse` from support-plugin.ts: the five-step
replacement chain (user ids, UUIDs, 32-hex ids, order-hex references,
whitespace collapse) followed by trim. -/
def sanitizeDraftResponse (draft : Option JValue) (userId : Option String) : List Char :=
  jsTrim (collapseWs (replaceOrderHex (replaceHex32 (replaceUuids
    (replaceUserIds (displayNameChars userId) (draftBase draft))))))

/-! ### Scanner laws and claim C7 -/

/-- The phrase inserted for identifier redaction. -/
def yourOrderChars : List Char := "your order".toList

theorem dropWhile_length_le (p : Char → Bool) (l : List Char) :
    (l.dropWhile p).length ≤ l.length := by
  induction l with
  | nil => simp
  | cons c cs ih =>
    simp only [List.dropWhile]
    cases p c <;> simp <;> omega

theorem drop_takeWhile_length (p : Char → Bool) (l : List Char) :
    l.drop (l.takeWhile p).length = l.dropWhile p := by
  induction l with
  | nil => simp
  | cons c cs ih =>
    simp only [List.takeWhile, List.dropWhile]
    cases p c <;> simp [ih]

theorem regexReplaceGo_skip_eq_drop (matcher : List Char → Option Nat)
    (ins : List Char) (s : Nat) :
    ∀ (p : Bool) (l : List Char), regexReplaceGo matcher ins (s + 1) p l =
      regexReplaceGo matcher ins 0 true (l.drop (s + 1)) := by
  induction s with
  | zero =>
    intro p l
    cases l with
    | nil => rfl
    | cons c cs => rfl
  | succ s ih =>
    intro p l
    cases l with
    | nil => rfl
    | cons c cs =>
      show regexReplaceGo matcher ins (s + 1) true cs = _
      rw [ih true cs]
      rfl

theorem regexReplaceGo_copy_true (matcher : List Char → Option Nat)
    (ins : List Char) (c : Char) (cs : List Char) :
    regexReplaceGo matcher ins 0 true (c :: cs) =
      c :: regexReplaceGo matcher ins 0 (isWordChar c) cs := rfl

theorem regexReplaceGo_copy_none (matcher : List Char → Option Nat)
    (ins : List Char) (c : Char) (cs : List Char)
    (h : matcher (c :: cs) = none) (p : Bool) :
    regexReplaceGo matcher ins 0 p (c :: cs) =
      c :: regexReplaceGo matcher ins 0 (isWordChar c) cs := by
  cases p with
  | true => rfl
  | false =>
    show (match matcher (c :: cs) with
      | some k => ins ++ regexReplaceGo matcher ins (k - 1) true cs
      | none => c :: regexReplaceGo matcher ins 0 (isWordChar c) cs) = _
    rw [h]

theorem regexReplaceGo_fire (matcher : List Char → Option Nat)
    (ins : List Char) (c : Char) (cs : List Char) (k : Nat)
    (h : matcher (c :: cs) = some k) (hk : 1 ≤ k) :
    regexReplaceGo matcher ins 0 false (c :: cs) =
      ins ++ regexReplaceGo matcher ins 0 true ((c :: cs).drop k) := by
  show (match matcher (c :: cs) with
    | some k => ins ++ regexReplaceGo matcher ins (k - 1) true cs
    | none => c :: regexReplaceGo matcher ins 0 (isWordChar c) cs) = _
  rw [h]
  match k, hk with
  | 1, _ => rfl
  | k + 2, _ =>
    show ins ++ regexReplaceGo matcher ins (k + 1) true cs = _
    rw [regexReplaceGo_skip_eq_drop]
    rfl

/-- If the global regex matches anywhere, the replacement string appears in
the scanner's output. -/
theorem regexHasMatch_infix_ins (matcher : List Char → Option Nat)
    (ins : List Char) :
    ∀ (l : List Char) (p : Bool), regexHasMatch matcher p l = true →
      ins <:+: regexReplaceGo matcher ins 0 p l := by
  intro l
  induction l with
  | nil => intro p h; simp [regexHasMatch] at h
  | cons c cs ih =>
    intro p h
    cases p with
    | true =>
      have h2 : regexHasMatch matcher (isWordChar c) cs = true := by
        simpa [regexHasMatch] using h
      rw [regexReplaceGo_copy_true]
      exact List.infix_cons (ih (isWordChar c) h2)
    | false =>
      cases hm : matcher (c :: cs) with
      | some k =>
        show ins <:+: (match matcher (c :: cs) with
          | some k => ins ++ regexReplaceGo matcher ins (k - 1) true cs
          | none => c :: regexReplaceGo matcher ins 0 (isWordChar c) cs)
        rw [hm]
        exact ⟨[], regexReplaceGo matcher ins (k - 1) true cs, rfl⟩
      | none =>
        have h2 : regexHasMatch matcher (isWordChar c) cs = true := by
          simp only [regexHasMatch, hm, Option.isSome_none, Bool.and_false,
            Bool.false_or] at h
          exact h
        rw [regexReplaceGo_copy_none matcher ins c cs hm]
        exact List.infix_cons (ih (isWordChar c) h2)

/-- Characters that can occur inside an order-hex match: the letters of
"order" (either case), whitespace, or a hex digit. -/
def allowedOrdChar (c : Char) : Bool :=
  c == 'o' || c == 'O' || c == 'r' || c == 'R' || c == 'd' || c == 'D' ||
    c == 'e' || c == 'E' || isJsWs c || isHexDigitCI c

theorem matchOrderHexLen_pos_allowed (l : List Char) (k : Nat)
    (h : matchOrderHexLen l = some k) :
    1 ≤ k ∧ ∀ x ∈ l.take k, allowedOrdChar x = true := by
  match l with
  | [] => simp [matchOrderHexLen] at h
  | [c1] => simp [matchOrderHexLen] at h
  | [c1, c2] => simp [matchOrderHexLen] at h
  | [c1, c2, c3] => simp [matchOrderHexLen] at h
  | [c1, c2, c3, c4] => simp [matchOrderHexLen] at h
  | c1 :: c2 :: c3 :: c4 :: c5 :: rest =>
    simp only [matchOrderHexLen] at h
    by_cases h1 : ((c1 == 'o' || c1 == 'O') && (c2 == 'r' || c2 == 'R') &&
        (c3 == 'd' || c3 == 'D') && (c4 == 'e' || c4 == 'E') &&
        (c5 == 'r' || c5 == 'R')) = true
    case neg =>
      rw [if_neg h1] at h
      exact absurd h (by simp)
    rw [if_pos h1] at h
    by_cases h2 : (rest.takeWhile isJsWs).isEmpty = true
    case pos =>
      rw [if_pos h2] at h
      exact absurd h (by simp)
    rw [if_neg h2] at h
    by_cases h3 : (8 ≤ ((rest.dropWhile isJsWs).takeWhile isHexDigitCI).length ∧
        boundaryAfter ((rest.dropWhile isJsWs).dropWhile isHexDigitCI) = true)
    case neg =>
      rw [if_neg h3] at h
      exact absurd h (by simp)
    rw [if_pos h3] at h
    have hk : some (5 + (rest.takeWhile isJsWs).length +
        ((rest.dropWhile isJsWs).takeWhile isHexDigitCI).length) = some k := h
    have hk2 : k = 5 + (rest.takeWhile isJsWs).length +
        ((rest.dropWhile isJsWs).takeWhile isHexDigitCI).length := by
      have := Option.some.inj hk
      omega
    subst hk2
    refine ⟨by omega, ?_⟩
    have hrest : rest = rest.takeWhile isJsWs ++
        ((rest.dropWhile isJsWs).takeWhile isHexDigitCI ++
          (rest.dropWhile isJsWs).dropWhile isHexDigitCI) := by
      have e1 : rest.dropWhile isJsWs =
          (rest.dropWhile isJsWs).takeWhile isHexDigitCI ++
            (rest.dropWhile isJsWs).dropWhile isHexDigitCI :=
        (List.takeWhile_append_dropWhile _ _).symm
      conv_lhs => rw [← List.takeWhile_append_dropWhile isJsWs rest, e1]
    have hsplit : c1 :: c2 :: c3 :: c4 :: c5 :: rest =
        (c1 :: c2 :: c3 :: c4 :: c5 :: (rest.takeWhile isJsWs ++
          (rest.dropWhile isJsWs).takeWhile isHexDigitCI)) ++
          (rest.dropWhile isJsWs).dropWhile isHexDigitCI := by
      conv_lhs => rw [hrest]
      simp
    rw [hsplit, List.take_left' (by simp; omega)]
    intro x hx
    have hb1 : (c1 == 'o' || c1 == 'O') = true := by
      simp only [Bool.and_eq_true] at h1
      exact h1.1.1.1.1
    have hb2 : (c2 == 'r' || c2 == 'R') = true := by
      simp only [Bool.and_eq_true] at h1
      exact h1.1.1.1.2
    have hb3 : (c3 == 'd' || c3 == 'D') = true := by
      simp only [Bool.and_eq_true] at h1
      exact h1.1.1.2
    have hb4 : (c4 == 'e' || c4 == 'E') = true := by
      simp only [Bool.and_eq_true] at h1
      exact h1.1.2
    have hb5 : (c5 == 'r' || c5 == 'R') = true := by
      simp only [Bool.and_eq_true] at h1
      exact h1.2
    simp only [List.mem_cons, List.mem_append] at hx
    rcases hx with rfl | rfl | rfl | rfl | rfl | hx | hx
    · simp only [allowedOrdChar]
      rcases Bool.or_eq_true_iff.mp hb1 with hh | hh <;> simp [hh]
    · simp only [allowedOrdChar]
      rcases Bool.or_eq_true_iff.mp hb2 with hh | hh <;> simp [hh]
    · simp only [allowedOrdChar]
      rcases Bool.or_eq_true_iff.mp hb3 with hh | hh <;> simp [hh]
    · simp only [allowedOrdChar]
      rcases Bool.or_eq_true_iff.mp hb4 with hh | hh <;> simp [hh]
    · simp only [allowedOrdChar]
      rcases Bool.or_eq_true_iff.mp hb5 with hh | hh <;> simp [hh]
    · have := List.mem_takeWhile_imp hx
      simp [allowedOrdChar, this]
    · have := List.mem_takeWhile_imp hx
      simp [allowedOrdChar, this]

/-- The order-hex replacement cannot destroy an occurrence of
"your order": the letter y can appear nowhere inside an order-hex match,
so a match either sits entirely before or after the occurrence, and a
match starting at the occurrence's own "order" suffix re-inserts the word
"order" it consumes. -/
theorem replaceOrderHexGo_preserves (n : Nat) :
    ∀ (l : List Char) (p : Bool), l.length ≤ n →
      yourOrderChars <:+: l →
      yourOrderChars <:+: regexReplaceGo matchOrderHexLen "order".toList 0 p l := by
  induction n with
  | zero =>
    intro l p hlen hinf
    have hl : l = [] := List.length_eq_zero.mp (Nat.le_zero.mp hlen)
    subst hl
    have := List.eq_nil_of_infix_nil hinf
    exact absurd this (by decide)
  | succ n ih =>
    intro l p hlen hinf
    obtain ⟨u, t, hl⟩ := hinf
    match u, hl with
    | [], hl =>
      subst hl
      have hstep : ∀ q : Bool,
          regexReplaceGo matchOrderHexLen "order".toList 0 q
            ([] ++ yourOrderChars ++ t) =
          'y' :: 'o' :: 'u' :: 'r' :: ' ' ::
            regexReplaceGo matchOrderHexLen "order".toList 0 false
              ('o' :: 'r' :: 'd' :: 'e' :: 'r' :: t) := by
        intro q
        cases q <;> rfl
      rw [hstep]
      cases hm : matchOrderHexLen ('o' :: 'r' :: 'd' :: 'e' :: 'r' :: t) with
      | some k =>
        obtain ⟨hk1, _⟩ := matchOrderHexLen_pos_allowed _ _ hm
        rw [regexReplaceGo_fire _ _ _ _ _ hm hk1]
        exact ⟨[], regexReplaceGo matchOrderHexLen "order".toList 0 true
          (('o' :: 'r' :: 'd' :: 'e' :: 'r' :: t).drop k), rfl⟩
      | none =>
        rw [regexReplaceGo_copy_none _ _ _ _ hm]
        exact ⟨[], regexReplaceGo matchOrderHexLen "order".toList 0 true t, rfl⟩
    | c :: u', hl =>
      have hl2 : l = c :: (u' ++ yourOrderChars ++ t) := by
        rw [← hl]
        simp
      subst hl2
      have hlen' : (u' ++ yourOrderChars ++ t).length ≤ n := by
        simp only [List.length_cons] at hlen
        omega
      have hinf' : yourOrderChars <:+: u' ++ yourOrderChars ++ t := ⟨u', t, rfl⟩
      cases p with
      | true =>
        rw [regexReplaceGo_copy_true]
        exact List.infix_cons (ih _ _ hlen' hinf')
      | false =>
        cases hm : matchOrderHexLen (c :: (u' ++ yourOrderChars ++ t)) with
        | none =>
          rw [regexReplaceGo_copy_none _ _ _ _ hm]
          exact List.infix_cons (ih _ _ hlen' hinf')
        | some k =>
          obtain ⟨hk1, hall⟩ := matchOrderHexLen_pos_allowed _ _ hm
          rw [regexReplaceGo_fire _ _ _ _ _ hm hk1]
          by_cases hcase : k ≤ (c :: u').length
          · have hsplit : c :: (u' ++ yourOrderChars ++ t) =
                (c :: u') ++ (yourOrderChars ++ t) := by simp
            have hdrop : (c :: (u' ++ yourOrderChars ++ t)).drop k =
                (c :: u').drop k ++ (yourOrderChars ++ t) := by
              rw [hsplit, List.drop_append_eq_append_drop,
                Nat.sub_eq_zero_of_le (by simpa using hcase), List.drop_zero]
            have hinf'' : yourOrderChars <:+:
                (c :: (u' ++ yourOrderChars ++ t)).drop k := by
              rw [hdrop]
              exact ⟨(c :: u').drop k, t, by simp⟩
            have hlen'' : ((c :: (u' ++ yourOrderChars ++ t)).drop k).length ≤ n := by
              rw [List.length_drop]
              simp only [List.length_cons] at hlen ⊢
              omega
            obtain ⟨s', t', hst⟩ := ih _ true hlen'' hinf''
            exact ⟨"order".toList ++ s', t', by rw [← hst]; simp⟩
          · push_neg at hcase
            have hy : 'y' ∈ (c :: (u' ++ yourOrderChars ++ t)).take k := by
              have hsplit : c :: (u' ++ yourOrderChars ++ t) =
                  (c :: u') ++ (yourOrderChars ++ t) := by simp
              rw [hsplit, List.take_append_eq_append_take]
              refine List.mem_append.mpr (Or.inr ?_)
              obtain ⟨j, hj⟩ : ∃ j, k - (c :: u').length = j + 1 :=
                ⟨k - (c :: u').length - 1, by
                  simp only [List.length_cons] at hcase ⊢
                  omega⟩
              rw [hj]
              have hred : List.take (j + 1) (yourOrderChars ++ t) =
                  'y' :: List.take j ("our order".toList ++ t) := rfl
              rw [hred]
              exact List.mem_cons_self _ _
            exact absurd (hall 'y' hy) (by decide)

theorem collapseWsGo_skip_eq_drop : ∀ (s : Nat) (l : List Char),
    collapseWsGo s l = collapseWsGo 0 (l.drop s) := by
  intro s
  induction s with
  | zero => intro l; rfl
  | succ s ih =>
    intro l
    cases l with
    | nil => rfl
    | cons c cs =>
      show collapseWsGo s cs = _
      rw [ih cs]
      rfl

theorem collapseWs_copy (c : Char) (cs : List Char) (hc : isJsWs c = false) :
    collapseWsGo 0 (c :: cs) = c :: collapseWsGo 0 cs := by
  cases cs with
  | nil => simp [collapseWsGo, hc]
  | cons d cs2 => simp [collapseWsGo, hc]

theorem collapseWs_run (c d : Char) (cs2 : List Char) (hc : isJsWs c = true)
    (hd : isJsWs d = true) :
    collapseWsGo 0 (c :: d :: cs2) =
      ' ' :: collapseWsGo 0 ((d :: cs2).dropWhile isJsWs) := by
  show (if isJsWs c then
      match d :: cs2 with
      | e :: _ =>
        if isJsWs e then
          ' ' :: collapseWsGo ((d :: cs2).takeWhile isJsWs).length (d :: cs2)
        else c :: collapseWsGo 0 (d :: cs2)
      | [] => [c]
    else c :: collapseWsGo 0 (d :: cs2)) = _
  rw [if_pos hc]
  show (if isJsWs d then
      ' ' :: collapseWsGo ((d :: cs2).takeWhile isJsWs).length (d :: cs2)
    else c :: collapseWsGo 0 (d :: cs2)) = _
  rw [if_pos hd, collapseWsGo_skip_eq_drop, drop_takeWhile_length]

/-- An infix whose first element fails `q` survives `dropWhile q`. -/
theorem infix_dropWhile_of_head_false (q : Char → Bool) (x : Char) (xs : List Char)
    (hx : q x = false) :
    ∀ l : List Char, (x :: xs) <:+: l → (x :: xs) <:+: l.dropWhile q := by
  intro l
  induction l with
  | nil =>
    intro h
    have := List.eq_nil_of_infix_nil h
    simp at this
  | cons c cs ih =>
    intro h
    by_cases hq : q c = true
    · have h2 : (x :: xs) <:+: cs := by
        obtain ⟨u, t, hl⟩ := h
        match u, hl with
        | [], hl =>
          have hcx : c = x := by
            have := congrArg (fun m => m.head?) hl
            simpa using this.symm
          rw [hcx] at hq
          rw [hq] at hx
          exact absurd hx (by simp)
        | b :: u', hl =>
          refine ⟨u', t, ?_⟩
          have := congrArg (fun m => m.tail) hl
          simpa using this
      rw [List.dropWhile_cons_of_pos hq]
      exact ih h2
    · rw [List.dropWhile_cons_of_neg hq]
      exact h

theorem collapseWs_copy2 (c d : Char) (cs2 : List Char) (hc : isJsWs c = true)
    (hd : isJsWs d = false) :
    collapseWsGo 0 (c :: d :: cs2) = c :: collapseWsGo 0 (d :: cs2) := by
  show (if isJsWs c then
      match d :: cs2 with
      | e :: _ =>
        if isJsWs e then
          ' ' :: collapseWsGo ((d :: cs2).takeWhile isJsWs).length (d :: cs2)
        else c :: collapseWsGo 0 (d :: cs2)
      | [] => [c]
    else c :: collapseWsGo 0 (d :: cs2)) = _
  rw [if_pos hc]
  show (if isJsWs d then
      ' ' :: collapseWsGo ((d :: cs2).takeWhile isJsWs).length (d :: cs2)
    else c :: collapseWsGo 0 (d :: cs2)) = _
  rw [if_neg (by simp [hd])]

theorem collapseWsGo_preserves (n : Nat) :
    ∀ l : List Char, l.length ≤ n → yourOrderChars <:+: l →
      yourOrderChars <:+: collapseWsGo 0 l := by
  induction n with
  | zero =>
    intro l hlen hinf
    have hl : l = [] := List.length_eq_zero.mp (Nat.le_zero.mp hlen)
    subst hl
    exact absurd (List.eq_nil_of_infix_nil hinf) (by decide)
  | succ n ih =>
    intro l hlen hinf
    obtain ⟨u, t, hl⟩ := hinf
    match u, hl with
    | [], hl =>
      subst hl
      exact ⟨[], collapseWsGo 0 t, rfl⟩
    | c :: u', hl =>
      have hl2 : l = c :: (u' ++ yourOrderChars ++ t) := by
        rw [← hl]; simp
      subst hl2
      have hlen' : (u' ++ yourOrderChars ++ t).length ≤ n := by
        simp only [List.length_cons] at hlen
        omega
      have hinf' : yourOrderChars <:+: u' ++ yourOrderChars ++ t := ⟨u', t, rfl⟩
      by_cases hc : isJsWs c = true
      · match u' with
        | [] =>
          have hstep : collapseWsGo 0 (c :: ([] ++ yourOrderChars ++ t)) =
              c :: collapseWsGo 0 ([] ++ yourOrderChars ++ t) :=
            collapseWs_copy2 c 'y' ("our order".toList ++ t) hc (by decide)
          rw [hstep]
          exact List.infix_cons (ih _ hlen' hinf')
        | d :: u'' =>
          by_cases hd : isJsWs d = true
          · rw [show c :: ((d :: u'') ++ yourOrderChars ++ t) =
              c :: d :: (u'' ++ yourOrderChars ++ t) from by simp]
            rw [collapseWs_run c d _ hc hd]
            have hdw : yourOrderChars <:+:
                (d :: (u'' ++ yourOrderChars ++ t)).dropWhile isJsWs := by
              refine infix_dropWhile_of_head_false isJsWs 'y' "our order".toList
                (by decide) _ ?_
              exact ⟨d :: u'', t, rfl⟩
            have hdlen : ((d :: (u'' ++ yourOrderChars ++ t)).dropWhile isJsWs).length
                ≤ n := by
              have h1 := dropWhile_length_le isJsWs (d :: (u'' ++ yourOrderChars ++ t))
              simp only [List.length_cons, List.length_append] at h1 hlen ⊢
              omega
            exact List.infix_cons (ih _ hdlen hdw)
          · rw [show c :: ((d :: u'') ++ yourOrderChars ++ t) =
              c :: d :: (u'' ++ yourOrderChars ++ t) from by simp]
            rw [collapseWs_copy2 c d _ hc (by simpa using hd)]
            have hinf2 : yourOrderChars <:+: d :: (u'' ++ yourOrderChars ++ t) :=
              ⟨d :: u'', t, rfl⟩
            have hlen2 : (d :: (u'' ++ yourOrderChars ++ t)).length ≤ n := by
              simp only [List.length_cons, List.length_append] at hlen' hlen ⊢
              omega
            exact List.infix_cons (ih _ hlen2 hinf2)
      · rw [collapseWs_copy _ _ (by simpa using hc)]
        exact List.infix_cons (ih _ hlen' hinf')

/-- Trimming preserves an occurrence of "your order" (its first and last
characters are not whitespace). -/
theorem jsTrim_preserves_yourOrder (l : List Char)
    (h : yourOrderChars <:+: l) : yourOrderChars <:+: jsTrim l := by
  have h1 : yourOrderChars <:+: l.dropWhile isJsWs :=
    infix_dropWhile_of_head_false isJsWs 'y' "our order".toList (by decide) l h
  have h2 : yourOrderChars.reverse <:+: (l.dropWhile isJsWs).reverse :=
    List.IsInfix.reverse h1
  have hrev : yourOrderChars.reverse = 'r' :: "edro ruoy".toList := rfl
  have h3 : yourOrderChars.reverse <:+:
      ((l.dropWhile isJsWs).reverse).dropWhile isJsWs := by
    rw [hrev] at h2 ⊢
    exact infix_dropWhile_of_head_false isJsWs 'r' "edro ruoy".toList (by decide) _ h2
  have h4 := List.IsInfix.reverse h3
  rw [List.reverse_reverse] at h4
  exact h4

/-- C7 (amended): the sanitizer applies its replacement chain in order
(user ids, UUIDs, 32-hex ids, order-hex references, whitespace collapse,
trim); whenever a word-bounded 32-hex identifier is still present after
the user-id and UUID stages, the final output contains "your order". -/
theorem sanitizeDraftResponse_hex32_redacted (draft : Option JValue)
    (userId : Option String)
    (h : regexHasMatch matchHex32Len false
      (replaceUuids (replaceUserIds (displayNameChars userId) (draftBase draft))) =
        true) :
    yourOrderChars <:+: sanitizeDraftResponse draft userId := by
  have h1 : yourOrderChars <:+: replaceHex32 (replaceUuids
      (replaceUserIds (displayNameChars userId) (draftBase draft))) :=
    regexHasMatch_infix_ins matchHex32Len "your order".toList _ false h
  have h2 : yourOrderChars <:+: replaceOrderHex (replaceHex32 (replaceUuids
      (replaceUserIds (displayNameChars userId) (draftBase draft)))) :=
    replaceOrderHexGo_preserves _ _ false le_rfl h1
  have h3 : yourOrderChars <:+: collapseWs (replaceOrderHex (replaceHex32 (replaceUuids
      (replaceUserIds (displayNameChars userId) (draftBase draft))))) :=
    collapseWsGo_preserves _ _ le_rfl h2
  exact jsTrim_preserves_yourOrder _ h3

/-- A representative draft with a word-bounded 32-hex identifier. -/
def c7WitnessDraft : List Char := "ref 0123456789abcdef0123456789abcdef ok".toList

/-- Closed witness for the amended C7: the identifier in the witness draft
survives stages 1-2, and the sanitized output contains "your order" (it is
exactly "ref your order ok"). -/
theorem sanitizeDraftResponse_hex32_redacted_witness :
    regexHasMatch matchHex32Len false
      (replaceUuids (replaceUserIds (displayNameChars none)
        (draftBase (some (.str c7WitnessDraft))))) = true ∧
    yourOrderChars <:+: sanitizeDraftResponse (some (.str c7WitnessDraft)) none ∧
    sanitizeDraftResponse (some (.str c7WitnessDraft)) none =
      "ref your order ok".toList :=
  ⟨by decide, sanitizeDraftResponse_hex32_redacted (some (.str c7WitnessDraft)) none
    (by decide), by decide⟩

/-- The draft refuting C7 as stated: its 32-hex identifier (32 decimal
digits) is consumed by the earlier user-id rule. -/
def c7CounterDraft : List Char :=
  "user-01234567890123456789012345678901 x0123456789abcdef0123456789abcdef".toList

/-- C7 counterexample: this draft contains a word-bounded 32-hex-digit
identifier, yet the sanitized output does not contain "your order" (the
identifier was consumed by the user-id replacement instead) and still
contains a run of 32 hex characters (embedded in a longer word, where the
regex's word boundaries do not match). -/
theorem sanitizeDraftResponse_hex32_counterexample :
    regexHasMatch matchHex32Len false c7CounterDraft = true ∧
    sanitizeDraftResponse (some (.str c7CounterDraft)) none =
      "there x0123456789abcdef0123456789abcdef".toList ∧
    ¬ (yourOrderChars <:+: sanitizeDraftResponse (some (.str c7CounterDraft)) none) ∧
    (sanitizeDraftResponse (some (.str c7CounterDraft)) none).tails.any
      (fun tl => decide (32 ≤ (tl.takeWhile isHexDigitCI).length)) = true := by
  exact ⟨by decide, by decide, by decide, by decide⟩

/-! ### Report normalization for the UI (`normalizeReportForUi`,
support-plugin.ts lines 169-179) and claim C8 -/

/-- The JS value `normalizeRecommendation` returns: the object, or null. -/
def recEmbed : Option (List (String × JValue)) → JValue
  | some fs => .obj fs
  | none => .null

/-- `normalizeReportForUi` from support-plugin.ts: keep the raw report's
fields and write the two normalized recommendations and the sanitized
draft on top. -/
def normalizeReportForUi (rawReport : List (String × JValue))
    (userId : Option String) : List (String × JValue) :=
  spreadMerge rawReport
    [("credit_recommendation",
        recEmbed (normalizeRecommendation (jsLookup rawReport "credit_recommendation"))),
     ("refund_recommendation",
        recEmbed (normalizeRecommendation (jsLookup rawReport "refund_recommendation"))),
     ("draft_response",
        .str (sanitizeDraftResponse (jsLookup rawReport "draft_response") userId))]

/-- The report refuting C8: its draft response makes the sanitizer
non-idempotent (the order-hex rule can fire again on its own output). -/
def c8CounterReport : List (String × JValue) :=
  [("draft_response", .str "order deadbeefcafebabe feedfacefeedface".toList)]

/-- C8 counterexample: normalizing this report twice differs from
normalizing it once - the first pass rewrites the draft to
"order feedfacefeedface", in which the order-hex rule matches again, so
the second pass rewrites it to "order". -/
theorem normalizeReportForUi_not_idempotent :
    normalizeReportForUi (normalizeReportForUi c8CounterReport none) none ≠
      normalizeReportForUi c8CounterReport none := by
  intro h
  have h1 : jsLookup (normalizeReportForUi c8CounterReport none) "draft_response" =
      some (.str "order feedfacefeedface".toList) := rfl
  have h2 : jsLookup (normalizeReportForUi (normalizeReportForUi c8CounterReport none)
      none) "draft_response" = some (.str "order".toList) := rfl
  rw [h, h1] at h2
  have h3 : "order feedfacefeedface".toList = "order".toList := by
    injection h2 with h4
    injection h4
  exact absurd h3 (by decide)

/-- Every binding of key `k` in `f` carries the value `v`. -/
def uniformKey (f : List (String × JValue)) (k : String) (v : JValue) : Prop :=
  ∀ p ∈ f, p.1 = k → p = (k, v)

theorem setField_uniform (f : List (String × JValue)) (k : String) (v : JValue) :
    uniformKey (setField f k v) k v := by
  intro p hp hpk
  unfold setField at hp
  by_cases hc : f.any (fun q => q.1 == k) = true
  · rw [if_pos hc] at hp
    obtain ⟨q, hq, hqe⟩ := List.mem_map.mp hp
    by_cases hqk : (q.1 == k) = true
    · rw [if_pos hqk] at hqe
      exact hqe.symm
    · rw [if_neg hqk] at hqe
      subst hqe
      exact absurd (by simpa using hpk) hqk
  · rw [if_neg hc] at hp
    rcases List.mem_append.mp hp with hmem | hmem
    · exact absurd (List.any_eq_true.mpr ⟨p, hmem, by simpa using hpk⟩) hc
    · simpa using hmem

theorem setField_uniform_other (f : List (String × JValue)) (k' : String)
    (w : JValue) (k : String) (v : JValue) (hne : (k' == k) = false)
    (hu : uniformKey f k v) : uniformKey (setField f k' w) k v := by
  intro p hp hpk
  unfold setField at hp
  by_cases hc : f.any (fun q => q.1 == k') = true
  · rw [if_pos hc] at hp
    obtain ⟨q, hq, hqe⟩ := List.mem_map.mp hp
    by_cases hqk : (q.1 == k') = true
    · rw [if_pos hqk] at hqe
      subst hqe
      have : k' = k := hpk
      rw [this] at hne
      simp at hne
    · rw [if_neg hqk] at hqe
      subst hqe
      exact hu q hq hpk
  · rw [if_neg hc] at hp
    rcases List.mem_append.mp hp with hmem | hmem
    · exact hu p hmem hpk
    · have : p = (k', w) := by simpa using hmem
      subst this
      have : k' = k := hpk
      rw [this] at hne
      simp at hne

theorem hasKey_setField_self (f : List (String × JValue)) (k : String) (v : JValue) :
    hasKey (setField f k v) k = true := by
  rw [← jsLookup_isSome_iff_hasKey, jsLookup_setField_same]
  rfl

theorem setField_eq_of_uniform (f : List (String × JValue)) (k : String) (v : JValue)
    (hu : uniformKey f k v) (hk : hasKey f k = true) : setField f k v = f := by
  unfold setField
  rw [if_pos (by simpa [hasKey] using hk)]
  conv_rhs => rw [← List.map_id f]
  apply List.map_congr_left
  intro p hp
  by_cases hpk : (p.1 == k) = true
  · rw [if_pos hpk]
    exact (hu p hp (by simpa using hpk)).symm
  · rw [if_neg hpk]
    rfl

theorem toNullableNumber_recAmountVal (raw : List (String × JValue)) :
    toNullableNumber (some (recAmountVal raw)) = recAmount raw := by
  unfold recAmountVal
  cases h : recAmount raw <;> rfl

theorem option_or_absorb (a b : Option ℚ) : (a.or b).or b = a.or b := by
  rw [Option.or_assoc, Option.or_self]

theorem recAmount_after_norm (raw : List (String × JValue)) :
    recAmount (setField (setField raw "amount_usd" (recAmountVal raw)) "reason"
      (recReasonVal raw)) = recAmount raw := by
  have l1 : jsLookup (setField (setField raw "amount_usd" (recAmountVal raw)) "reason"
      (recReasonVal raw)) "amount_usd" = some (recAmountVal raw) := by
    rw [jsLookup_setField_other _ _ _ _ (by decide), jsLookup_setField_same]
  have l2 : ∀ k' : String, (k' == "reason") = false → (k' == "amount_usd") = false →
      jsLookup (setField (setField raw "amount_usd" (recAmountVal raw)) "reason"
        (recReasonVal raw)) k' = jsLookup raw k' := by
    intro k' h1 h2
    rw [jsLookup_setField_other _ _ _ _ h1, jsLookup_setField_other _ _ _ _ h2]
  conv_lhs => unfold recAmount
  rw [l1, l2 "amount" (by decide) (by decide), l2 "credit_amount" (by decide) (by decide),
    l2 "refund_amount" (by decide) (by decide), toNullableNumber_recAmountVal]
  exact option_or_absorb _ _

theorem isNonEmptyString_shape (c : Option JValue) (h : isNonEmptyString c = true) :
    ∃ s, c = some (.str s) ∧ (jsTrim s).isEmpty = false := by
  match c with
  | none => simp [isNonEmptyString] at h
  | some .null => simp [isNonEmptyString] at h
  | some (.bool b) => simp [isNonEmptyString] at h
  | some (.num n) => simp [isNonEmptyString] at h
  | some (.arr xs) => simp [isNonEmptyString] at h
  | some (.obj fs) => simp [isNonEmptyString] at h
  | some (.str s) =>
    refine ⟨s, rfl, ?_⟩
    simpa [isNonEmptyString] using h

theorem recReasonVal_eq_found (raw : List (String × JValue)) (s : List Char)
    (h : recReasonFound raw = some (some (.str s))) : recReasonVal raw = .str s := by
  unfold recReasonVal
  rw [h]

theorem recReasonVal_eq_fallback (raw : List (String × JValue))
    (h : recReasonFound raw = none) :
    recReasonVal raw = (match jsLookup raw "reason" with
      | some .null => .str []
      | none => .str []
      | some w => w) := by
  unfold recReasonVal
  rw [h]

theorem recReasonVal_after_norm (raw : List (String × JValue)) :
    recReasonVal (setField (setField raw "amount_usd" (recAmountVal raw)) "reason"
      (recReasonVal raw)) = recReasonVal raw := by
  have l3 : jsLookup (setField (setField raw "amount_usd" (recAmountVal raw)) "reason"
      (recReasonVal raw)) "reason" = some (recReasonVal raw) := jsLookup_setField_same _ _ _
  have l4 : jsLookup (setField (setField raw "amount_usd" (recAmountVal raw)) "reason"
      (recReasonVal raw)) "credit_reason" = jsLookup raw "credit_reason" := by
    rw [jsLookup_setField_other _ _ _ _ (by decide),
      jsLookup_setField_other _ _ _ _ (by decide)]
  have l5 : jsLookup (setField (setField raw "amount_usd" (recAmountVal raw)) "reason"
      (recReasonVal raw)) "refund_reason" = jsLookup raw "refund_reason" := by
    rw [jsLookup_setField_other _ _ _ _ (by decide),
      jsLookup_setField_other _ _ _ _ (by decide)]
  cases hf : recReasonFound raw with
  | some c0 =>
    have hc0 : isNonEmptyString c0 = true := List.find?_some hf
    obtain ⟨s, hc0eq, hs⟩ := isNonEmptyString_shape c0 hc0
    subst hc0eq
    have hR : recReasonVal raw = .str s := recReasonVal_eq_found raw s hf
    have hfo : recReasonFound (setField (setField raw "amount_usd" (recAmountVal raw))
        "reason" (recReasonVal raw)) = some (some (.str s)) := by
      unfold recReasonFound
      rw [l3, hR]
      exact List.find?_cons_of_pos _ (by simp [isNonEmptyString, hs])
    rw [recReasonVal_eq_found _ _ hfo, hR]
  | none =>
    have hall := List.find?_eq_none.mp hf
    have hno1 : ¬ isNonEmptyString (jsLookup raw "reason") = true :=
      hall _ (by simp [recReasonFound])
    have hno2 : ¬ isNonEmptyString (jsLookup raw "credit_reason") = true :=
      hall _ (by simp [recReasonFound])
    have hno3 : ¬ isNonEmptyString (jsLookup raw "refund_reason") = true :=
      hall _ (by simp [recReasonFound])
    have hRfall := recReasonVal_eq_fallback raw hf
    have hRno : ¬ isNonEmptyString (some (recReasonVal raw)) = true := by
      cases ho1 : jsLookup raw "reason" with
      | none =>
        rw [hRfall, ho1]
        simp [isNonEmptyString, jsTrim]
      | some w =>
        cases w with
        | null =>
          rw [hRfall, ho1]
          simp [isNonEmptyString, jsTrim]
        | bool b => rw [hRfall, ho1]; rw [ho1] at hno1; exact hno1
        | num n => rw [hRfall, ho1]; rw [ho1] at hno1; exact hno1
        | str s => rw [hRfall, ho1]; rw [ho1] at hno1; exact hno1
        | arr xs => rw [hRfall, ho1]; rw [ho1] at hno1; exact hno1
        | obj fs => rw [hRfall, ho1]; rw [ho1] at hno1; exact hno1
    have hfo : recReasonFound (setField (setField raw "amount_usd" (recAmountVal raw))
        "reason" (recReasonVal raw)) = none := by
      unfold recReasonFound
      rw [l3, l4, l5]
      rw [List.find?_eq_none]
      intro x hx
      simp only [List.mem_cons, List.not_mem_nil] at hx
      rcases hx with rfl | rfl | rfl | hx
      · exact hRno
      · exact hno2
      · exact hno3
      · exact absurd hx (by simp)
    rw [recReasonVal_eq_fallback _ hfo, l3]
    cases ho1 : jsLookup raw "reason" with
    | none =>
      rw [hRfall, ho1]
    | some w =>
      cases w with
      | null => rw [hRfall, ho1]
      | bool b => rw [hRfall, ho1]
      | num n => rw [hRfall, ho1]
      | str s => rw [hRfall, ho1]
      | arr xs => rw [hRfall, ho1]
      | obj fs => rw [hRfall, ho1]

/-- Normalizing a recommendation twice is the same as normalizing it once:
the written `amount_usd` and `reason` fields re-normalize to themselves,
and rewriting a field with the value it already carries is a no-op. -/
theorem normalizeRecommendation_idem (x : Option JValue) :
    normalizeRecommendation (some (recEmbed (normalizeRecommendation x))) =
      normalizeRecommendation x := by
  cases hx : normalizeRecommendation x with
  | none => rfl
  | some out =>
    have hout : out = setField (setField (spreadFields (x.getD .null)) "amount_usd"
        (recAmountVal (spreadFields (x.getD .null)))) "reason"
        (recReasonVal (spreadFields (x.getD .null))) := by
      match x, hx with
      | some v, hx =>
        have hx2 : (if isSpreadableObject v = true then
            some (spreadMerge (spreadFields v)
              [("amount_usd", recAmountVal (spreadFields v)),
               ("reason", recReasonVal (spreadFields v))])
          else none) = some out := hx
        by_cases hsp : isSpreadableObject v = true
        · rw [if_pos hsp] at hx2
          have := Option.some.inj hx2
          rw [← this]
          rfl
        · rw [if_neg hsp] at hx2
          exact absurd hx2 (by simp)
    show some (spreadMerge out
      [("amount_usd", recAmountVal out), ("reason", recReasonVal out)]) = some out
    have hA : recAmountVal out = recAmountVal (spreadFields (x.getD .null)) := by
      unfold recAmountVal
      rw [hout, recAmount_after_norm]
    have hR : recReasonVal out = recReasonVal (spreadFields (x.getD .null)) := by
      rw [hout, recReasonVal_after_norm]
    rw [hA, hR]
    have hmerge : spreadMerge out
        [("amount_usd", recAmountVal (spreadFields (x.getD .null))),
         ("reason", recReasonVal (spreadFields (x.getD .null)))] =
        setField (setField out "amount_usd"
          (recAmountVal (spreadFields (x.getD .null)))) "reason"
          (recReasonVal (spreadFields (x.getD .null))) := rfl
    rw [hmerge]
    have hset1 : setField out "amount_usd" (recAmountVal (spreadFields (x.getD .null)))
        = out := by
      apply setField_eq_of_uniform
      · rw [hout]
        exact setField_uniform_other _ "reason" _ "amount_usd" _ (by decide)
          (setField_uniform _ _ _)
      · rw [hout]
        exact hasKey_setField_of_hasKey _ _ _ _ (hasKey_setField_self _ _ _)
    have hset2 : setField out "reason" (recReasonVal (spreadFields (x.getD .null)))
        = out := by
      apply setField_eq_of_uniform
      · rw [hout]
        exact setField_uniform _ _ _
      · rw [hout]
        exact hasKey_setField_self _ _ _
    rw [hset1, hset2]

/-- C8 (amended): report normalization is idempotent whenever draft
sanitization is stable on the report's draft (re-sanitizing the sanitized
draft changes nothing).  The recommendation normalization is idempotent
unconditionally; only the draft sanitizer can cascade. -/
theorem normalizeReportForUi_idempotent_of_sanitize_stable
    (r : List (String × JValue)) (u : Option String)
    (hs : sanitizeDraftResponse
        (some (.str (sanitizeDraftResponse (jsLookup r "draft_response") u))) u =
      sanitizeDraftResponse (jsLookup r "draft_response") u) :
    normalizeReportForUi (normalizeReportForUi r u) u = normalizeReportForUi r u := by
  have hout1 : normalizeReportForUi r u =
      setField (setField (setField r "credit_recommendation"
        (recEmbed (normalizeRecommendation (jsLookup r "credit_recommendation"))))
        "refund_recommendation"
        (recEmbed (normalizeRecommendation (jsLookup r "refund_recommendation"))))
        "draft_response"
        (.str (sanitizeDraftResponse (jsLookup r "draft_response") u)) := rfl
  have hL1 : jsLookup (normalizeReportForUi r u) "credit_recommendation" =
      some (recEmbed (normalizeRecommendation (jsLookup r "credit_recommendation"))) := by
    rw [hout1, jsLookup_setField_other _ _ _ _ (by decide),
      jsLookup_setField_other _ _ _ _ (by decide), jsLookup_setField_same]
  have hL2 : jsLookup (normalizeReportForUi r u) "refund_recommendation" =
      some (recEmbed (normalizeRecommendation (jsLookup r "refund_recommendation"))) := by
    rw [hout1, jsLookup_setField_other _ _ _ _ (by decide), jsLookup_setField_same]
  have hL3 : jsLookup (normalizeReportForUi r u) "draft_response" =
      some (.str (sanitizeDraftResponse (jsLookup r "draft_response") u)) := by
    rw [hout1, jsLookup_setField_same]
  show setField (setField (setField (normalizeReportForUi r u) "credit_recommendation"
      (recEmbed (normalizeRecommendation
        (jsLookup (normalizeReportForUi r u) "credit_recommendation"))))
      "refund_recommendation"
      (recEmbed (normalizeRecommendation
        (jsLookup (normalizeReportForUi r u) "refund_recommendation"))))
      "draft_response"
      (.str (sanitizeDraftResponse
        (jsLookup (normalizeReportForUi r u) "draft_response") u)) =
    normalizeReportForUi r u
  rw [hL1, hL2, hL3, normalizeRecommendation_idem, normalizeRecommendation_idem, hs]
  have hset1 : setField (normalizeReportForUi r u) "credit_recommendation"
      (recEmbed (normalizeRecommendation (jsLookup r "credit_recommendation"))) =
      normalizeReportForUi r u := by
    apply setField_eq_of_uniform
    · rw [hout1]
      exact setField_uniform_other _ _ _ _ _ (by decide)
        (setField_uniform_other _ _ _ _ _ (by decide) (setField_uniform _ _ _))
    · rw [hout1]
      exact hasKey_setField_of_hasKey _ _ _ _
        (hasKey_setField_of_hasKey _ _ _ _ (hasKey_setField_self _ _ _))
  have hset2 : setField (normalizeReportForUi r u) "refund_recommendation"
      (recEmbed (normalizeRecommendation (jsLookup r "refund_recommendation"))) =
      normalizeReportForUi r u := by
    apply setField_eq_of_uniform
    · rw [hout1]
      exact setField_uniform_other _ _ _ _ _ (by decide) (setField_uniform _ _ _)
    · rw [hout1]
      exact hasKey_setField_of_hasKey _ _ _ _ (hasKey_setField_self _ _ _)
  have hset3 : setField (normalizeReportForUi r u) "draft_response"
      (.str (sanitizeDraftResponse (jsLookup r "draft_response") u)) =
      normalizeReportForUi r u := by
    apply setField_eq_of_uniform
    · rw [hout1]
      exact setField_uniform _ _ _
    · rw [hout1]
      exact hasKey_setField_self _ _ _
  rw [hset1, hset2, hset3]

/-- A report whose draft is already fixed under sanitization. -/
def c8StableReport : List (String × JValue) :=
  [("draft_response", .str "Thanks for reaching out about your order.".toList),
   ("credit_recommendation", .obj [("credit_amount", .str "12.50".toList)])]

/-- Closed witness for the amended C8: on a report with a
sanitization-stable draft, normalization is idempotent. -/
theorem normalizeReportForUi_idempotent_witness :
    normalizeReportForUi (normalizeReportForUi c8StableReport none) none =
      normalizeReportForUi c8StableReport none :=
  normalizeReportForUi_idempotent_of_sanitize_stable c8StableReport none (by decide)

/-! ### The credential cache's single-flight refresh (spec sections 4.1
and 5).

Modelled from the spec: the credential-cache implementation lives in
`server/lib/lakebase.js`, which is not part of the sources here; the model
below follows the specification's algorithm word for word.  A state holds
the single-slot cache, the in-flight marker, a fetch counter and one phase
per caller; the atomic caller step either returns the cached token, joins
an in-flight refresh, or starts the one refresh; completion of the refresh
stores the token, clears the marker, and wakes every waiting caller with
that same token (the success path, which is what the claim is about). -/

/-- A caller of `getToken()`: not yet started, awaiting the shared
refresh, or finished with a token. -/
inductive CallerPhase where
  | ready
  | waiting
  | done (token : String)
deriving DecidableEq

/-- The in-flight-refresh marker. -/
inductive SlotState where
  | idle
  | pending
deriving DecidableEq

/-- The credential cache with `n` concurrent callers. -/
structure CacheState (n : Nat) where
  cache : Option String
  slot : SlotState
  fetchCount : Nat
  phase : Fin n → CallerPhase

/-- All callers are ready, nothing cached, no refresh in flight. -/
def initialCacheState (n : Nat) : CacheState n :=
  { cache := none, slot := .idle, fetchCount := 0, phase := fun _ => .ready }

/-- One atomic step of the system: a caller's guarded check-and-act, or
the completion of the in-flight fetch (with an arbitrary token, chosen by
the environment). -/
inductive CacheStep (n : Nat) : CacheState n → CacheState n → Prop where
  | startCached (s : CacheState n) (i : Fin n) (t : String)
      (hp : s.phase i = .ready) (hc : s.cache = some t) :
      CacheStep n s { s with phase := Function.update s.phase i (.done t) }
  | startAwait (s : CacheState n) (i : Fin n)
      (hp : s.phase i = .ready) (hc : s.cache = none) (hs : s.slot = .pending) :
      CacheStep n s { s with phase := Function.update s.phase i .waiting }
  | startFetch (s : CacheState n) (i : Fin n)
      (hp : s.phase i = .ready) (hc : s.cache = none) (hs : s.slot = .idle) :
      CacheStep n s { s with slot := SlotState.pending,
                             fetchCount := s.fetchCount + 1,
                             phase := Function.update s.phase i CallerPhase.waiting }
  | resolve (s : CacheState n) (t : String) (hs : s.slot = .pending) :
      CacheStep n s { cache := some t, slot := SlotState.idle,
                      fetchCount := s.fetchCount,
                      phase := fun j => match s.phase j with
                        | .waiting => .done t
                        | p => p }

/-- The system invariant: at most one fetch ever starts, the fetch counter
matches the cache/slot configuration, and every finished caller holds the
cached token. -/
def cacheInv {n : Nat} (s : CacheState n) : Prop :=
  s.fetchCount ≤ 1 ∧
  (s.cache = none → s.slot = .idle → s.fetchCount = 0) ∧
  (s.slot = .pending → s.cache = none) ∧
  (∀ t, s.cache = some t → ∀ j t', s.phase j = .done t' → t' = t) ∧
  (∀ j t', s.phase j = .done t' → s.cache ≠ none) ∧
  (s.slot = .pending → 1 ≤ s.fetchCount) ∧
  (s.cache ≠ none → 1 ≤ s.fetchCount)

theorem cacheInv_initial (n : Nat) : cacheInv (initialCacheState n) := by
  refine ⟨by simp [initialCacheState], fun _ _ => rfl, fun h => rfl, ?_, ?_, ?_, ?_⟩
  · intro t ht
    simp [initialCacheState] at ht
  · intro j t' hj
    simp [initialCacheState] at hj
  · intro h
    simp [initialCacheState] at h
  · intro h
    simp [initialCacheState] at h

theorem cacheInv_step {n : Nat} {s s' : CacheState n}
    (hstep : CacheStep n s s') (hinv : cacheInv s) : cacheInv s' := by
  obtain ⟨i1, i2, i3, i4, i5, i6, i7⟩ := hinv
  cases hstep with
  | startCached i t hp hc =>
    unfold cacheInv
    dsimp only
    refine ⟨i1, i2, i3, ?_, ?_, i6, i7⟩
    · intro t0 ht0 j t' hj
      rw [Function.update_apply] at hj
      by_cases hji : j = i
      · rw [if_pos hji] at hj
        have ht : t = t' := by injection hj
        rw [hc] at ht0
        have ht2 : t = t0 := by injection ht0
        rw [← ht, ← ht2]
      · rw [if_neg hji] at hj
        exact i4 t0 ht0 j t' hj
    · intro j t' hj
      rw [hc]
      simp
  | startAwait i hp hc hs =>
    unfold cacheInv
    dsimp only
    refine ⟨i1, i2, i3, ?_, ?_, i6, i7⟩
    · intro t0 ht0 j t' hj
      rw [Function.update_apply] at hj
      by_cases hji : j = i
      · rw [if_pos hji] at hj
        exact absurd hj (by simp)
      · rw [if_neg hji] at hj
        exact i4 t0 ht0 j t' hj
    · intro j t' hj
      rw [Function.update_apply] at hj
      by_cases hji : j = i
      · rw [if_pos hji] at hj
        exact absurd hj (by simp)
      · rw [if_neg hji] at hj
        exact i5 j t' hj
  | startFetch i hp hc hs =>
    have hzero : s.fetchCount = 0 := i2 hc hs
    unfold cacheInv
    dsimp only
    refine ⟨by omega, ?_, ?_, ?_, ?_, ?_, ?_⟩
    · intro h1 h2
      exact absurd h2 (by simp)
    · intro h1
      exact hc
    · intro t0 ht0
      rw [hc] at ht0
      exact absurd ht0 (by simp)
    · intro j t' hj
      rw [Function.update_apply] at hj
      by_cases hji : j = i
      · rw [if_pos hji] at hj
        exact absurd hj (by simp)
      · rw [if_neg hji] at hj
        exact i5 j t' hj
    · intro h1
      omega
    · intro h1
      exact absurd hc (fun hc2 => h1 hc2)
  | resolve t hs =>
    have hcn : s.cache = none := i3 hs
    have hfc : 1 ≤ s.fetchCount := i6 hs
    unfold cacheInv
    dsimp only
    refine ⟨i1, ?_, ?_, ?_, ?_, ?_, ?_⟩
    · intro h1 h2
      exact absurd h1 (by simp)
    · intro h1
      exact absurd h1 (by simp)
    · intro t0 ht0 j t' hj
      have ht0t : t = t0 := by injection ht0
      cases hph : s.phase j with
      | ready =>
        rw [hph] at hj
        exact absurd hj (by simp)
      | waiting =>
        rw [hph] at hj
        have : t = t' := by injection hj
        rw [← this, ← ht0t]
      | done t2 =>
        exact absurd hcn (i5 j t2 hph)
    · intro j t' hj
      simp
    · intro h1
      exact hfc
    · intro h1
      exact hfc

theorem cacheInv_reachable {n : Nat} {s : CacheState n}
    (h : Relation.ReflTransGen (CacheStep n) (initialCacheState n) s) :
    cacheInv s := by
  induction h with
  | refl => exact cacheInv_initial n
  | tail _ hstep ih => exact cacheInv_step hstep ih

/-- C9: in every reachable state of the credential cache in which all
callers have finished, the injected fetch ran exactly once and every
caller holds the same token: callers that arrive while a refresh is in
flight share that refresh instead of issuing their own. -/
theorem credentialCache_single_flight {n : Nat} (s : CacheState n)
    (hreach : Relation.ReflTransGen (CacheStep n) (initialCacheState n) s)
    (hn : 0 < n)
    (hdone : ∀ j : Fin n, ∃ t, s.phase j = .done t) :
    s.fetchCount = 1 ∧
    ∀ j j' : Fin n, ∀ t t' : String,
      s.phase j = .done t → s.phase j' = .done t' → t = t' := by
  have hinv := cacheInv_reachable hreach
  obtain ⟨i1, i2, i3, i4, i5, i6, i7⟩ := hinv
  obtain ⟨t0, hj0⟩ := hdone ⟨0, hn⟩
  have hc : s.cache ≠ none := i5 _ _ hj0
  have hfc : 1 ≤ s.fetchCount := i7 hc
  refine ⟨by omega, ?_⟩
  intro j j' t t' hj hj'
  cases hcc : s.cache with
  | none => exact absurd hcc hc
  | some tc =>
    have h1 := i4 tc hcc j t hj
    have h2 := i4 tc hcc j' t' hj'
    rw [h1, h2]

/-- Trace state after caller 0 starts the one fetch. -/
def cacheTrace1 : CacheState 2 :=
  { cache := none, slot := SlotState.pending, fetchCount := 1,
    phase := Function.update (fun _ => CallerPhase.ready) 0 CallerPhase.waiting }

/-- Trace state after caller 1 joins the in-flight fetch. -/
def cacheTrace2 : CacheState 2 :=
  { cache := none, slot := SlotState.pending, fetchCount := 1,
    phase := Function.update (Function.update (fun _ => CallerPhase.ready) 0
      CallerPhase.waiting) 1 CallerPhase.waiting }

/-- Trace state after the fetch resolves with token "tok". -/
def cacheFinal : CacheState 2 :=
  { cache := some "tok", slot := SlotState.idle, fetchCount := 1,
    phase := fun j => match Function.update (Function.update
        (fun _ : Fin 2 => CallerPhase.ready) 0 CallerPhase.waiting) 1
        CallerPhase.waiting j with
      | .waiting => .done "tok"
      | p => p }

/-- Closed witness for C9: a concrete two-caller interleaving - caller 0
starts the fetch, caller 1 arrives while it is in flight, the fetch
resolves - reaches an all-done state with one fetch and equal tokens. -/
theorem credentialCache_single_flight_witness :
    cacheFinal.fetchCount = 1 ∧
    ∀ j j' : Fin 2, ∀ t t' : String,
      cacheFinal.phase j = .done t → cacheFinal.phase j' = .done t' → t = t' := by
  have h1 : CacheStep 2 (initialCacheState 2) cacheTrace1 :=
    CacheStep.startFetch (initialCacheState 2) 0 rfl rfl rfl
  have h2 : CacheStep 2 cacheTrace1 cacheTrace2 :=
    CacheStep.startAwait cacheTrace1 1 rfl rfl rfl
  have h3 : CacheStep 2 cacheTrace2 cacheFinal :=
    CacheStep.resolve cacheTrace2 "tok" rfl
  have hreach : Relation.ReflTransGen (CacheStep 2) (initialCacheState 2) cacheFinal :=
    Relation.ReflTransGen.tail (Relation.ReflTransGen.tail
      (Relation.ReflTransGen.tail Relation.ReflTransGen.refl h1) h2) h3
  refine credentialCache_single_flight cacheFinal hreach (by decide) ?_
  intro j
  refine ⟨"tok", ?_⟩
  fin_cases j <;> rfl
